import Mathlib

/-!
Simple-Go-interpreter: lexer, recursive-descent parser and evaluator.

A shallow embedding of `src/main.go` and the properties of its three-stage
pipeline (text → tokens → tree → integer).

Modelling conventions.

* A Go `string` is a sequence of bytes: `GoString := List Nat`, each element a
  byte value. `str` turns a Lean string literal into its UTF-8 bytes.
* Go `int` is taken to be the 64-bit two's-complement integer: values are
  `Int`, and every arithmetic result is reduced by `wrap`.
* `panic(msg)` is an explicit result: `Res.panic` carrying which of the five
  messages of the source was raised.
* The lexer's cursor `l.position` is kept as in the source; the loops of
  `skipWhitespace` and `readNumber` recurse over the unscanned remainder
  `l.input[l.position:]`.
* The mutually recursive parser functions recurse on an explicit fuel
  argument; `Res.outOfFuel` is the model's "not finished yet" and is shown
  never to be the answer of `parse` / `evaluate_expression`.
-/

namespace GoInterp

/-! ## Strings and characters -/

/-- A Go `string`: its bytes, in order. -/
abbrev GoString := List Nat

/-- The bytes (UTF-8) of a string literal. -/
def str (s : String) : GoString :=
  s.toList.flatMap (fun c => (String.utf8EncodeChar c).map UInt8.toNat)

/-- Go `unicode.IsDigit(rune(b))` for a byte `b`: in the Latin-1 range the only
decimal digits are the ASCII digits 0 to 9 (bytes 48 to 57). -/
def isDigit (c : Nat) : Bool := decide (48 ≤ c) && decide (c ≤ 57)

/-- Go `unicode.IsSpace(rune(b))` for a byte `b`: in the Latin-1 range the
white space characters are tab, line feed, vertical tab, form feed, carriage
return, space, U+0085 and U+00A0. -/
def isSpace (c : Nat) : Bool :=
  c == 9 || c == 10 || c == 11 || c == 12 || c == 13 || c == 32 || c == 133 || c == 160

/-- Go `strings.ContainsRune("+-*/", rune(b))` for a byte `b`. -/
def isOperatorChar (c : Nat) : Bool := decide (c ∈ str "+-*/")

/-- Go `string(b)` for a byte `b`: the UTF-8 encoding of the code point `b`
(one byte below 0x80, two bytes from 0x80 to 0xFF). -/
def stringOfByte (b : Nat) : GoString :=
  if b < 128 then [b] else [192 + b / 64, 128 + b % 64]

/-- Go slice expression `s[a:b]`. -/
def slice (s : GoString) (a b : Nat) : GoString := (s.take b).drop a

/-! ## Data model (`main.go` lines 10-64) -/

/-- The values of the interface `Node`: the nil interface value, a
`*NumberNode` or a `*BinOpNode` (pointers are modelled as the values they own). -/
inductive Node where
  | nil : Node
  | NumberNode (Value : Int) : Node
  | BinOpNode (Left : Node) (Right : Node) (Operator : GoString) : Node
  deriving DecidableEq, Repr

inductive TokenType where
  | TokenNumber
  | TokenOperator
  | TokenLeftParen
  | TokenRightParen
  | TokenError
  | TokenEOF
  deriving DecidableEq, Repr

/-- The struct Token; the field `Type` of the source is `Typ` here. -/
structure Token where
  Typ : TokenType
  Value : GoString
  deriving DecidableEq, Repr

/-- The zero value of `Token`. -/
def Token.zero : Token := ⟨.TokenNumber, []⟩

structure Lexer where
  input : GoString
  position : Nat
  currentToken : Token
  deriving DecidableEq, Repr

structure Parser where
  lexer : Lexer
  currentToken : Token
  deriving DecidableEq, Repr

/-- The five `panic` messages of the source. -/
inductive Panic where
  /-- The message of parseFactor when the closing parenthesis is missing. -/
  | expectedRightParen
  /-- The message "Unexpected token", raised by parseFactor. -/
  | unexpectedToken
  /-- The message "division by zero", raised by evaluate. -/
  | divisionByZero
  /-- The message "unknown operator", raised by evaluate. -/
  | unknownOperator
  /-- The message "unknown node type", raised by evaluate. -/
  | unknownNodeType
  deriving DecidableEq, Repr

/-- Outcome of a call: a returned value, a panic, or (model only) fuel exhausted. -/
inductive Res (α : Type) where
  | ok (a : α) : Res α
  | panic (e : Panic) : Res α
  | outOfFuel : Res α
  deriving DecidableEq, Repr

/-! ## Lexer (`main.go` lines 74-124) -/

/-- The loop of `readNumber`: `rest` is `l.input[pos:]`; returns the final position. -/
def readNumberLoop : GoString → Nat → Nat
  | [], pos => pos
  | c :: rest, pos => if isDigit c then readNumberLoop rest (pos + 1) else pos

def readNumber (l : Lexer) : Token × Lexer :=
  let startPosition := l.position
  let position := readNumberLoop (l.input.drop l.position) l.position
  (⟨.TokenNumber, slice l.input startPosition position⟩, { l with position := position })

/-- The method readOperator, called with `currentChar = l.input[l.position]`. -/
def readOperator (l : Lexer) (currentChar : Nat) : Token × Lexer :=
  (⟨.TokenOperator, stringOfByte currentChar⟩, { l with position := l.position + 1 })

/-- The loop of `skipWhitespace`: `rest` is `l.input[pos:]`; returns the final position. -/
def skipWhitespaceLoop : GoString → Nat → Nat
  | [], pos => pos
  | c :: rest, pos => if isSpace c then skipWhitespaceLoop rest (pos + 1) else pos

def skipWhitespace (l : Lexer) : Lexer :=
  { l with position := skipWhitespaceLoop (l.input.drop l.position) l.position }

def NewLexer (input : GoString) : Lexer :=
  { input := input, position := 0, currentToken := Token.zero }

/-- The method NextToken: the returned token and the lexer afterwards. -/
def NextToken (l : Lexer) : Token × Lexer :=
  let l := skipWhitespace l
  match l.input.drop l.position with
  | [] => (⟨.TokenEOF, []⟩, l)
  | currentChar :: _ =>
    if isDigit currentChar then readNumber l
    else if isOperatorChar currentChar then readOperator l currentChar
    else if currentChar = 40 then
      (⟨.TokenLeftParen, stringOfByte currentChar⟩, { l with position := l.position + 1 })
    else if currentChar = 41 then
      (⟨.TokenRightParen, stringOfByte currentChar⟩, { l with position := l.position + 1 })
    else (⟨.TokenError, stringOfByte currentChar⟩, l)

/-! ## `strconv.Atoi` (Go standard library, after its source: `Atoi`, `ParseInt`, `ParseUint`) -/

inductive NumError where
  | ErrSyntax
  | ErrRange
  deriving DecidableEq, Repr

/-- Base-10 value of a run of digit bytes. -/
def digitsValue (s : GoString) : Nat := s.foldl (fun acc c => 10 * acc + (c - 48)) 0

/-- The loop of Go `strconv.ParseUint(s, 10, 64)` over the bytes that remain,
with the value `n` read so far: a byte that is not a decimal digit is a syntax
error (value 0); a digit that takes the value past 2^64 - 1 is a range error
(value 2^64 - 1), reported at that digit, before the bytes after it are seen. -/
def parseUintLoop : GoString → Nat → Nat × Option NumError
  | [], n => (n, none)
  | c :: rest, n =>
    if isDigit c then
      if (2 ^ 64 - 1) / 10 + 1 ≤ n then (2 ^ 64 - 1, some .ErrRange)
      else if 2 ^ 64 - 1 < n * 10 + (c - 48) then (2 ^ 64 - 1, some .ErrRange)
      else parseUintLoop rest (n * 10 + (c - 48))
    else (0, some .ErrSyntax)

/-- Go `strconv.ParseUint(s, 10, 64)`: the empty string is a syntax error. -/
def ParseUint (s : GoString) : Nat × Option NumError :=
  if s.isEmpty then (0, some .ErrSyntax) else parseUintLoop s 0

/-- Go `strconv.ParseInt(s, 10, 0)` with a 64-bit `int`: an optional sign, then
`ParseUint`; a syntax error gives 0; a value outside the signed range (or a
range error of `ParseUint`) gives the nearest representable integer with a
range error. -/
def ParseInt (s : GoString) : Int × Option NumError :=
  if s.isEmpty then (0, some .ErrSyntax)
  else
    let neg : Bool := s.head? == some 45
    let body : GoString := if s.head? == some 43 || s.head? == some 45 then s.tail else s
    let r := ParseUint body
    if r.2 == some .ErrSyntax then (0, some .ErrSyntax)
    else if !neg && decide (2 ^ 63 ≤ r.1) then (2 ^ 63 - 1, some .ErrRange)
    else if neg && decide (2 ^ 63 < r.1) then (-(2 ^ 63), some .ErrRange)
    else (if neg then -(r.1 : Int) else (r.1 : Int), none)

/-- The loop of the fast path of `strconv.Atoi`: the value of the digits, or
`none` at the first byte that is not a decimal digit. -/
def atoiFastLoop : GoString → Nat → Option Nat
  | [], n => some n
  | c :: rest, n => if isDigit c then atoiFastLoop rest (n * 10 + (c - 48)) else none

/-- Go `strconv.Atoi` with a 64-bit `int`: the value and the error. Strings
of 1 to 18 bytes take the fast path (optional sign, then digits only, which
cannot overflow); all others go through `ParseInt(s, 10, 0)`. -/
def Atoi (s : GoString) : Int × Option NumError :=
  if 0 < s.length ∧ s.length < 19 then
    let signed : Bool := s.head? == some 45 || s.head? == some 43
    let body : GoString := if signed then s.tail else s
    if signed && body.isEmpty then (0, some .ErrSyntax)
    else
      match atoiFastLoop body 0 with
      | none => (0, some .ErrSyntax)
      | some n => (if s.head? == some 45 then -(n : Int) else (n : Int), none)
  else ParseInt s

/-! ## Parser (`main.go` lines 66-72, 126-175) -/

def consumeToken (p : Parser) : Parser :=
  let r := NextToken p.lexer
  { lexer := r.2, currentToken := r.1 }

def NewParser (lexer : Lexer) : Parser :=
  consumeToken { lexer := lexer, currentToken := Token.zero }

mutual

def parseExpression : Nat → Parser → Res (Node × Parser)
  | 0, _ => .outOfFuel
  | fuel + 1, p =>
    match parseTerm fuel p with
    | .ok (node, p) => parseExpressionLoop fuel node p
    | .panic e => .panic e
    | .outOfFuel => .outOfFuel

/-- The `for` loop of `parseExpression`, entered with the accumulated `node`. -/
def parseExpressionLoop : Nat → Node → Parser → Res (Node × Parser)
  | 0, _, _ => .outOfFuel
  | fuel + 1, node, p =>
    if p.currentToken.Typ = .TokenOperator ∧
        (p.currentToken.Value = str "+" ∨ p.currentToken.Value = str "-") then
      let operator := p.currentToken.Value
      let p := consumeToken p
      match parseTerm fuel p with
      | .ok (right, p) => parseExpressionLoop fuel (.BinOpNode node right operator) p
      | .panic e => .panic e
      | .outOfFuel => .outOfFuel
    else .ok (node, p)

def parseTerm : Nat → Parser → Res (Node × Parser)
  | 0, _ => .outOfFuel
  | fuel + 1, p =>
    match parseFactor fuel p with
    | .ok (node, p) => parseTermLoop fuel node p
    | .panic e => .panic e
    | .outOfFuel => .outOfFuel

/-- The `for` loop of `parseTerm`, entered with the accumulated `node`. -/
def parseTermLoop : Nat → Node → Parser → Res (Node × Parser)
  | 0, _, _ => .outOfFuel
  | fuel + 1, node, p =>
    if p.currentToken.Typ = .TokenOperator ∧
        (p.currentToken.Value = str "*" ∨ p.currentToken.Value = str "/") then
      let operator := p.currentToken.Value
      let p := consumeToken p
      match parseFactor fuel p with
      | .ok (right, p) => parseTermLoop fuel (.BinOpNode node right operator) p
      | .panic e => .panic e
      | .outOfFuel => .outOfFuel
    else .ok (node, p)

def parseFactor : Nat → Parser → Res (Node × Parser)
  | 0, _ => .outOfFuel
  | fuel + 1, p =>
    let token := p.currentToken
    match token.Typ with
    | .TokenNumber =>
      let p := consumeToken p
      let value := (Atoi token.Value).1
      .ok (.NumberNode value, p)
    | .TokenLeftParen =>
      let p := consumeToken p
      match parseExpression fuel p with
      | .ok (node, p) =>
        if p.currentToken.Typ ≠ .TokenRightParen then .panic .expectedRightParen
        else
          let p := consumeToken p
          .ok (node, p)
      | .panic e => .panic e
      | .outOfFuel => .outOfFuel
    | _ => .panic .unexpectedToken

end

/-! ## Evaluator (`main.go` lines 177-202) -/

/-- Reduction of an exact integer into the 64-bit two's-complement range. -/
def wrap (x : Int) : Int := (x + 2 ^ 63) % 2 ^ 64 - 2 ^ 63

def evaluate : Node → Res Int
  | .NumberNode Value => .ok Value
  | .BinOpNode Left Right Operator =>
    match evaluate Left with
    | .ok left =>
      match evaluate Right with
      | .ok right =>
        if Operator = str "+" then .ok (wrap (left + right))
        else if Operator = str "-" then .ok (wrap (left - right))
        else if Operator = str "*" then .ok (wrap (left * right))
        else if Operator = str "/" then
          if right = 0 then .panic .divisionByZero
          else .ok (wrap (Int.tdiv left right))
        else .panic .unknownOperator
      | .panic e => .panic e
      | .outOfFuel => .outOfFuel
    | .panic e => .panic e
    | .outOfFuel => .outOfFuel
  | .nil => .panic .unknownNodeType

/-! ## One line of input (`main.go` lines 214-218) -/

/-- Fuel that is enough for every parser state reached on `input`. -/
def parseFuel (input : GoString) : Nat := 4 * input.length + 3

/-- The calls NewLexer, NewParser, parseExpression of the read loop: the tree and the parser afterwards. -/
def parse (input : GoString) : Res (Node × Parser) :=
  parseExpression (parseFuel input) (NewParser (NewLexer input))

/-- The body of the read loop for one line: parse, then evaluate the tree. -/
def evaluate_expression (input : GoString) : Res Int :=
  match parse input with
  | .ok (ast, _) => evaluate ast
  | .panic e => .panic e
  | .outOfFuel => .outOfFuel

/-! ## Definitions used to state and prove the properties -/

/-- The unscanned remainder `l.input[l.position:]`. -/
def Lexer.rest (l : Lexer) : GoString := l.input.drop l.position

/-- What `NextToken` does, told on the unscanned remainder alone: the token
and the remainder afterwards. Used in proofs only; `NextToken_scan` links it
to `NextToken`. -/
def scan (s : GoString) : Token × GoString :=
  match s.dropWhile isSpace with
  | [] => (⟨.TokenEOF, []⟩, [])
  | c :: t =>
    if isDigit c then (⟨.TokenNumber, (c :: t).takeWhile isDigit⟩, (c :: t).dropWhile isDigit)
    else if isOperatorChar c then (⟨.TokenOperator, stringOfByte c⟩, t)
    else if c = 40 then (⟨.TokenLeftParen, stringOfByte c⟩, t)
    else if c = 41 then (⟨.TokenRightParen, stringOfByte c⟩, t)
    else (⟨.TokenError, stringOfByte c⟩, c :: t)

/-- The unscanned remainder behind the parser's lexer. -/
def Parser.rest (p : Parser) : GoString := p.lexer.rest

/-- Tokens that stand for consumed input weigh 1; `TokenError` and `TokenEOF`
(which leave the cursor where it is) weigh 0. -/
def tokenWeight : TokenType → Nat
  | .TokenError => 0
  | .TokenEOF => 0
  | _ => 1

/-- Input not yet built into the tree: the unscanned bytes plus the lookahead. -/
def Parser.measure (p : Parser) : Nat := p.rest.length + tokenWeight p.currentToken.Typ

/-- Same lookahead, remainders related by `R`. -/
def ParserRel (R : GoString → GoString → Prop) (p q : Parser) : Prop :=
  p.currentToken = q.currentToken ∧ R p.rest q.rest

/-- Same outcome: the same tree with related parsers, or the same panic. -/
def ResRel (R : GoString → GoString → Prop) :
    Res (Node × Parser) → Res (Node × Parser) → Prop
  | .ok a, .ok b => a.1 = b.1 ∧ ParserRel R a.2 b.2
  | .panic e1, .panic e2 => e1 = e2
  | .outOfFuel, .outOfFuel => True
  | _, _ => False

/-- The relation `R` is kept by one step of the lexer, which returns the same
token on both sides. -/
def ScanInvariant (R : GoString → GoString → Prop) : Prop :=
  ∀ s t, R s t → (scan s).1 = (scan t).1 ∧ R (scan s).2 (scan t).2

/-- Whether the text starts with a decimal digit. -/
def startsWithDigit : GoString → Bool
  | [] => false
  | c :: _ => isDigit c

/-- The text is a literal: one or more decimal digits. -/
def IsLiteral (d : GoString) : Prop := d ≠ [] ∧ ∀ c ∈ d, isDigit c = true

instance (d : GoString) : Decidable (IsLiteral d) := by
  unfold IsLiteral
  exact inferInstance

/-- The parser's lookahead is `tok` and the unscanned remainder is `s`. -/
def Parser.At (p : Parser) (tok : Token) (s : GoString) : Prop :=
  p.currentToken = tok ∧ p.rest = s

/-- Some amount of fuel lets `parseExpression` return `node` from the parser
state `p`, leaving the state `q`. -/
def ExprOk (p : Parser) (node : Node) (q : Parser) : Prop :=
  ∃ n, parseExpression n p = .ok (node, q)

/-- Some amount of fuel lets the loop of `parseExpression` finish. -/
def ExprLoopOk (acc : Node) (p : Parser) (node : Node) (q : Parser) : Prop :=
  ∃ n, parseExpressionLoop n acc p = .ok (node, q)

/-- Some amount of fuel lets `parseTerm` finish. -/
def TermOk (p : Parser) (node : Node) (q : Parser) : Prop :=
  ∃ n, parseTerm n p = .ok (node, q)

/-- Some amount of fuel lets the loop of `parseTerm` finish. -/
def TermLoopOk (acc : Node) (p : Parser) (node : Node) (q : Parser) : Prop :=
  ∃ n, parseTermLoop n acc p = .ok (node, q)

/-- Some amount of fuel lets `parseFactor` finish. -/
def FactorOk (p : Parser) (node : Node) (q : Parser) : Prop :=
  ∃ n, parseFactor n p = .ok (node, q)

/-- The text of a chain of (operator byte, literal) pairs: `o1 n1 o2 n2 ...`. -/
def chainText (chain : List (Nat × GoString)) : GoString :=
  chain.flatMap (fun x => x.1 :: x.2)

/-- The left-nested tree `BinOp(...BinOp(BinOp(acc,o1,n1),o2,n2)...,ok,nk)`. -/
def leftNest (acc : Node) (chain : List (Nat × GoString)) : Node :=
  chain.foldl (fun acc x => .BinOpNode acc (.NumberNode (Atoi x.2).1) [x.1]) acc

/-- One step of the left fold of values: apply operator `x.1` to the value
so far and the literal `x.2`, as `evaluate` does for one BinaryOp node. -/
def chainStep (r : Res Int) (x : Nat × GoString) : Res Int :=
  match r with
  | .ok v => evaluate (.BinOpNode (.NumberNode v) (.NumberNode (Atoi x.2).1) [x.1])
  | .panic e => .panic e
  | .outOfFuel => .outOfFuel

/-- A tree the evaluator can handle: no nil node, every operator one of + - * /. -/
def Node.WellFormed : Node → Prop
  | .nil => False
  | .NumberNode _ => True
  | .BinOpNode l r op =>
    (op = str "+" ∨ op = str "-" ∨ op = str "*" ∨ op = str "/") ∧ l.WellFormed ∧ r.WellFormed

/-- The text `t` is the text `s` with space (32) or tab (9) bytes inserted, at
the start, at the end or between two bytes of `s` that are not both digits.
The flag tells whether the byte of the original text just before `s` is a digit. -/
inductive WsInserted : Bool → GoString → GoString → Prop where
  | nil (b : Bool) : WsInserted b [] []
  | keep (b : Bool) (c : Nat) (s t : GoString) :
      WsInserted (isDigit c) s t → WsInserted b (c :: s) (c :: t)
  | insert (b : Bool) (w : Nat) (s t : GoString) :
      (w = 32 ∨ w = 9) → ¬(b = true ∧ startsWithDigit s = true) →
      WsInserted b s t → WsInserted b s (w :: t)

/-- The lexer after `n` calls of `NextToken`. -/
def lexerAfter : Nat → Lexer → Lexer
  | 0, l => l
  | n + 1, l => lexerAfter n (NextToken l).2

/-- The token returned by call number `n + 1` of `NextToken`. -/
def nthToken (n : Nat) (l : Lexer) : Token := (NextToken (lexerAfter n l)).1

mutual

/-- Number of `consumeToken` calls (tokens requested from the lexer) made by
`parseExpression fuel p`, following its calls one by one. -/
def callsExpression : Nat → Parser → Nat
  | 0, _ => 0
  | fuel + 1, p =>
    callsTerm fuel p +
      match parseTerm fuel p with
      | .ok (node, p) => callsExpressionLoop fuel node p
      | _ => 0

/-- Number of `consumeToken` calls made by the loop of `parseExpression`. -/
def callsExpressionLoop : Nat → Node → Parser → Nat
  | 0, _, _ => 0
  | fuel + 1, node, p =>
    if p.currentToken.Typ = .TokenOperator ∧
        (p.currentToken.Value = str "+" ∨ p.currentToken.Value = str "-") then
      1 + callsTerm fuel (consumeToken p) +
        match parseTerm fuel (consumeToken p) with
        | .ok (right, q) =>
          callsExpressionLoop fuel (.BinOpNode node right p.currentToken.Value) q
        | _ => 0
    else 0

/-- Number of `consumeToken` calls made by `parseTerm fuel p`. -/
def callsTerm : Nat → Parser → Nat
  | 0, _ => 0
  | fuel + 1, p =>
    callsFactor fuel p +
      match parseFactor fuel p with
      | .ok (node, p) => callsTermLoop fuel node p
      | _ => 0

/-- Number of `consumeToken` calls made by the loop of `parseTerm`. -/
def callsTermLoop : Nat → Node → Parser → Nat
  | 0, _, _ => 0
  | fuel + 1, node, p =>
    if p.currentToken.Typ = .TokenOperator ∧
        (p.currentToken.Value = str "*" ∨ p.currentToken.Value = str "/") then
      1 + callsFactor fuel (consumeToken p) +
        match parseFactor fuel (consumeToken p) with
        | .ok (right, q) => callsTermLoop fuel (.BinOpNode node right p.currentToken.Value) q
        | _ => 0
    else 0

/-- Number of `consumeToken` calls made by `parseFactor fuel p`: one for a
Number; for a LeftParen one, those of the inner expression, and one more when
the right parenthesis is consumed. -/
def callsFactor : Nat → Parser → Nat
  | 0, _ => 0
  | fuel + 1, p =>
    match p.currentToken.Typ with
    | .TokenNumber => 1
    | .TokenLeftParen =>
      1 + callsExpression fuel (consumeToken p) +
        match parseExpression fuel (consumeToken p) with
        | .ok (_, q) => if q.currentToken.Typ ≠ .TokenRightParen then 0 else 1
        | _ => 0
    | _ => 0

end

/-- Tokens requested from the lexer for one line: the call in `NewParser` and
those of `parseExpression`. -/
def tokensRequested (input : GoString) : Nat :=
  1 + callsExpression (parseFuel input) (NewParser (NewLexer input))

/-- The parser `p` runs over a line `s` and the parser `p2` over the line `s`
followed by a right parenthesis (byte 41) and the text `t`: either both have
the same lookahead, not end of input, and `p2` has the right parenthesis and
`t` still to scan after what `p` has; or `p` is at end of input and `p2` has
that right parenthesis as lookahead, with `t` still to scan. -/
def PrefixRel (t : GoString) (p p2 : Parser) : Prop :=
  (p.currentToken = p2.currentToken ∧ p.currentToken.Typ ≠ .TokenEOF ∧
    p2.rest = p.rest ++ 41 :: t) ∨
  (p.currentToken.Typ = .TokenEOF ∧ p2.currentToken = ⟨.TokenRightParen, [41]⟩ ∧ p2.rest = t)

/-- The loop of decimal printing: `acc` holds the digits already produced,
lowest first in, so that the highest digit ends in front. -/
def decimalLoop : Nat → Nat → GoString → GoString
  | 0, _, acc => acc
  | fuel + 1, n, acc =>
    if n < 10 then (48 + n) :: acc
    else decimalLoop fuel (n / 10) ((48 + n % 10) :: acc)

/-- The decimal text of a natural number, without leading zeros. -/
def decimal (n : Nat) : GoString := decimalLoop (n + 1) n []

/-- The printer of claim C19: a Literal in decimal, a BinaryOp as
"(" left operator right ")". -/
def render : Node → GoString
  | .nil => []
  | .NumberNode v => decimal v.toNat
  | .BinOpNode l r op => str "(" ++ render l ++ op ++ render r ++ str ")"

/-- The trees claim C19 prints: operators among + - * /, Literal values
non-negative and within the 64-bit integer. -/
def Node.Printable : Node → Prop
  | .nil => False
  | .NumberNode v => 0 ≤ v ∧ v < 2 ^ 63
  | .BinOpNode l r op =>
    (op = str "+" ∨ op = str "-" ∨ op = str "*" ∨ op = str "/") ∧ l.Printable ∧ r.Printable

/-! ## The lexer seen from the unscanned remainder -/

theorem skipWhitespaceLoop_eq (rest : GoString) (pos : Nat) :
    skipWhitespaceLoop rest pos = pos + (rest.takeWhile isSpace).length := by
  induction rest generalizing pos with
  | nil => simp [skipWhitespaceLoop]
  | cons c rest ih =>
    by_cases h : isSpace c = true
    · simp [skipWhitespaceLoop, h, ih]; omega
    · simp [skipWhitespaceLoop, h]

theorem readNumberLoop_eq (rest : GoString) (pos : Nat) :
    readNumberLoop rest pos = pos + (rest.takeWhile isDigit).length := by
  induction rest generalizing pos with
  | nil => simp [readNumberLoop]
  | cons c rest ih =>
    by_cases h : isDigit c = true
    · simp [readNumberLoop, h, ih]; omega
    · simp [readNumberLoop, h]

theorem drop_length_takeWhile (f : Nat → Bool) (s : GoString) :
    s.drop (s.takeWhile f).length = s.dropWhile f := by
  induction s with
  | nil => simp
  | cons c s ih =>
    by_cases h : f c = true
    · simp [List.takeWhile_cons, List.dropWhile_cons, h, ih]
    · simp [List.takeWhile_cons, List.dropWhile_cons, h]

theorem take_length_takeWhile (f : Nat → Bool) (s : GoString) :
    s.take (s.takeWhile f).length = s.takeWhile f := by
  induction s with
  | nil => simp
  | cons c s ih =>
    by_cases h : f c = true
    · simp [List.takeWhile_cons, h, ih]
    · simp [List.takeWhile_cons, h]

theorem drop_add_eq (input : GoString) (pos k : Nat) :
    input.drop (pos + k) = (input.drop pos).drop k := by
  rw [List.drop_drop, Nat.add_comm]

theorem slice_eq (input : GoString) (pos k : Nat) :
    slice input pos (pos + k) = (input.drop pos).take k := by
  unfold slice
  induction pos generalizing input with
  | zero => simp
  | succ n ih =>
    cases input with
    | nil => simp
    | cons c input =>
      have : n + 1 + k = (n + k) + 1 := by omega
      rw [this]
      simpa using ih input

theorem skipWhitespace_rest (l : Lexer) :
    (skipWhitespace l).rest = l.rest.dropWhile isSpace := by
  simp only [skipWhitespace, Lexer.rest, skipWhitespaceLoop_eq, drop_add_eq, drop_length_takeWhile]

/-- The remainder after moving the cursor by `k`. -/
theorem rest_advance (l : Lexer) (k : Nat) :
    ({ l with position := l.position + k } : Lexer).rest = l.rest.drop k := by
  unfold Lexer.rest
  exact drop_add_eq _ _ _

theorem readNumber_rest (l : Lexer) :
    (readNumber l).1 = ⟨.TokenNumber, l.rest.takeWhile isDigit⟩ ∧
      (readNumber l).2.rest = l.rest.dropWhile isDigit := by
  constructor
  · simp only [readNumber, readNumberLoop_eq, slice_eq, Lexer.rest, take_length_takeWhile]
  · simp only [readNumber, readNumberLoop_eq]
    rw [rest_advance]
    exact drop_length_takeWhile isDigit l.rest

/-- The method `NextToken` returns the token of `scan` and leaves the remainder of `scan`;
it changes nothing but the cursor. -/
theorem NextToken_scan (l : Lexer) :
    (NextToken l).1 = (scan l.rest).1 ∧ (NextToken l).2.rest = (scan l.rest).2 ∧
      (NextToken l).2.input = l.input ∧ (NextToken l).2.currentToken = l.currentToken := by
  have hsk := skipWhitespace_rest l
  have hin : (skipWhitespace l).input = l.input := rfl
  have hct : (skipWhitespace l).currentToken = l.currentToken := rfl
  unfold NextToken scan
  simp only
  rw [← hsk, ← hin, ← hct]
  generalize skipWhitespace l = l1
  have hr : l1.input.drop l1.position = l1.rest := rfl
  rw [hr]
  cases hrest : l1.rest with
  | nil => simp [hrest]
  | cons c t =>
    simp only
    have hadv := rest_advance l1 1
    rw [hrest] at hadv
    by_cases hd : isDigit c = true
    · have hn := readNumber_rest l1
      rw [hrest] at hn
      simp only [hd, if_true, hn.1, hn.2]
      simp [readNumber]
    · simp only [hd, Bool.false_eq_true, if_false]
      by_cases ho : isOperatorChar c = true
      · simp only [ho, if_true, readOperator, hadv]
        simp
      · simp only [ho, Bool.false_eq_true, if_false]
        by_cases h40 : c = 40
        · subst h40
          simp only [if_true, hadv]
          simp
        · by_cases h41 : c = 41
          · subst h41
            simp only [if_true, hadv]
            simp [hadv]
          · simp only [h40, h41, if_false, hrest]
            simp

/-! ## Fuel: more fuel never changes a finished result -/

theorem fuel_mono_step (n : Nat) :
    (∀ p, parseExpression n p ≠ .outOfFuel → parseExpression (n + 1) p = parseExpression n p) ∧
    (∀ node p, parseExpressionLoop n node p ≠ .outOfFuel →
      parseExpressionLoop (n + 1) node p = parseExpressionLoop n node p) ∧
    (∀ p, parseTerm n p ≠ .outOfFuel → parseTerm (n + 1) p = parseTerm n p) ∧
    (∀ node p, parseTermLoop n node p ≠ .outOfFuel →
      parseTermLoop (n + 1) node p = parseTermLoop n node p) ∧
    (∀ p, parseFactor n p ≠ .outOfFuel → parseFactor (n + 1) p = parseFactor n p) := by
  induction n with
  | zero =>
    refine ⟨?_, ?_, ?_, ?_, ?_⟩ <;> intros <;> simp_all [parseExpression, parseExpressionLoop,
      parseTerm, parseTermLoop, parseFactor]
  | succ n ih =>
    obtain ⟨ihE, ihEL, ihT, ihTL, ihF⟩ := ih
    refine ⟨?_, ?_, ?_, ?_, ?_⟩
    · intro p h
      simp only [parseExpression] at h ⊢
      cases hT : parseTerm n p with
      | ok a =>
        rw [hT] at h
        rw [ihT p (by simp [hT]), hT]
        exact ihEL _ _ h
      | panic e => rw [ihT p (by simp [hT]), hT]
      | outOfFuel => simp [hT] at h
    · intro node p h
      simp only [parseExpressionLoop] at h ⊢
      split
      · rename_i hc
        simp only [hc, if_true] at h
        cases hT : parseTerm n (consumeToken p) with
        | ok a =>
          rw [hT] at h
          rw [ihT _ (by simp [hT]), hT]
          exact ihEL _ _ h
        | panic e => rw [ihT _ (by simp [hT]), hT]
        | outOfFuel => simp [hT] at h
      · rfl
    · intro p h
      simp only [parseTerm] at h ⊢
      cases hT : parseFactor n p with
      | ok a =>
        rw [hT] at h
        rw [ihF p (by simp [hT]), hT]
        exact ihTL _ _ h
      | panic e => rw [ihF p (by simp [hT]), hT]
      | outOfFuel => simp [hT] at h
    · intro node p h
      simp only [parseTermLoop] at h ⊢
      split
      · rename_i hc
        simp only [hc, if_true] at h
        cases hT : parseFactor n (consumeToken p) with
        | ok a =>
          rw [hT] at h
          rw [ihF _ (by simp [hT]), hT]
          exact ihTL _ _ h
        | panic e => rw [ihF _ (by simp [hT]), hT]
        | outOfFuel => simp [hT] at h
      · rfl
    · intro p h
      simp only [parseFactor] at h ⊢
      cases hty : p.currentToken.Typ <;> simp only [hty] at h ⊢
      cases hT : parseExpression n (consumeToken p) with
      | ok a =>
        rw [ihE _ (by simp [hT]), hT]
      | panic e => rw [ihE _ (by simp [hT]), hT]
      | outOfFuel => simp [hT] at h

theorem parseExpression_mono {n m : Nat} {p : Parser} (h : parseExpression n p ≠ .outOfFuel)
    (hnm : n ≤ m) : parseExpression m p = parseExpression n p := by
  induction hnm with
  | refl => rfl
  | step _ ih => rw [(fuel_mono_step _).1 p (by rw [ih]; exact h), ih]

theorem parseExpressionLoop_mono {n m : Nat} {node : Node} {p : Parser}
    (h : parseExpressionLoop n node p ≠ .outOfFuel) (hnm : n ≤ m) :
    parseExpressionLoop m node p = parseExpressionLoop n node p := by
  induction hnm with
  | refl => rfl
  | step _ ih => rw [(fuel_mono_step _).2.1 node p (by rw [ih]; exact h), ih]

theorem parseTerm_mono {n m : Nat} {p : Parser} (h : parseTerm n p ≠ .outOfFuel)
    (hnm : n ≤ m) : parseTerm m p = parseTerm n p := by
  induction hnm with
  | refl => rfl
  | step _ ih => rw [(fuel_mono_step _).2.2.1 p (by rw [ih]; exact h), ih]

theorem parseTermLoop_mono {n m : Nat} {node : Node} {p : Parser}
    (h : parseTermLoop n node p ≠ .outOfFuel) (hnm : n ≤ m) :
    parseTermLoop m node p = parseTermLoop n node p := by
  induction hnm with
  | refl => rfl
  | step _ ih => rw [(fuel_mono_step _).2.2.2.1 node p (by rw [ih]; exact h), ih]

theorem parseFactor_mono {n m : Nat} {p : Parser} (h : parseFactor n p ≠ .outOfFuel)
    (hnm : n ≤ m) : parseFactor m p = parseFactor n p := by
  induction hnm with
  | refl => rfl
  | step _ ih => rw [(fuel_mono_step _).2.2.2.2 p (by rw [ih]; exact h), ih]

/-! ## Termination measure -/

theorem consumeToken_scan (p : Parser) :
    (consumeToken p).currentToken = (scan p.rest).1 ∧ (consumeToken p).rest = (scan p.rest).2 := by
  have h := NextToken_scan p.lexer
  exact ⟨h.1, h.2.1⟩

theorem length_dropWhile_le (f : Nat → Bool) (s : GoString) :
    (s.dropWhile f).length ≤ s.length := by
  induction s with
  | nil => simp
  | cons c s ih =>
    by_cases h : f c = true
    · simp only [List.dropWhile_cons, h, if_true, List.length_cons]; omega
    · simp [List.dropWhile_cons, h]

theorem scan_measure (s : GoString) :
    (scan s).2.length + tokenWeight (scan s).1.Typ ≤ s.length := by
  have hle := length_dropWhile_le isSpace s
  unfold scan
  cases hs : s.dropWhile isSpace with
  | nil => simp [tokenWeight]
  | cons c t =>
    rw [hs] at hle
    simp only [List.length_cons] at hle
    simp only
    by_cases hd : isDigit c = true
    · have := length_dropWhile_le isDigit t
      simp only [hd, if_true, List.dropWhile_cons, tokenWeight]
      omega
    · simp only [hd, Bool.false_eq_true, if_false]
      by_cases ho : isOperatorChar c = true
      · simp only [ho, if_true, tokenWeight]; omega
      · simp only [ho, Bool.false_eq_true, if_false]
        by_cases h40 : c = 40
        · simp only [h40, if_true, tokenWeight]; omega
        · by_cases h41 : c = 41
          · simp only [h41, if_true, tokenWeight]; simp; omega
          · simp only [h40, h41, if_false, tokenWeight, List.length_cons]; omega

theorem consumeToken_measure (p : Parser) : (consumeToken p).measure ≤ p.rest.length := by
  have h := consumeToken_scan p
  unfold Parser.measure
  rw [h.1, h.2]
  exact scan_measure _

theorem consumeToken_measure_lt (p : Parser) (h : tokenWeight p.currentToken.Typ = 1) :
    (consumeToken p).measure < p.measure := by
  have := consumeToken_measure p
  unfold Parser.measure at *
  omega

/-- Every successful call leaves less to parse (the loops: no more). -/
theorem measure_decrease (n : Nat) :
    (∀ p node q, parseExpression n p = .ok (node, q) → q.measure < p.measure) ∧
    (∀ acc p node q, parseExpressionLoop n acc p = .ok (node, q) → q.measure ≤ p.measure) ∧
    (∀ p node q, parseTerm n p = .ok (node, q) → q.measure < p.measure) ∧
    (∀ acc p node q, parseTermLoop n acc p = .ok (node, q) → q.measure ≤ p.measure) ∧
    (∀ p node q, parseFactor n p = .ok (node, q) → q.measure < p.measure) := by
  induction n with
  | zero =>
    refine ⟨?_, ?_, ?_, ?_, ?_⟩ <;> intros <;> simp_all [parseExpression, parseExpressionLoop,
      parseTerm, parseTermLoop, parseFactor]
  | succ n ih =>
    obtain ⟨ihE, ihEL, ihT, ihTL, ihF⟩ := ih
    refine ⟨?_, ?_, ?_, ?_, ?_⟩
    · intro p node q h
      simp only [parseExpression] at h
      cases hT : parseTerm n p with
      | ok a =>
        obtain ⟨node1, p1⟩ := a
        rw [hT] at h
        have h1 := ihT _ _ _ hT
        have h2 := ihEL _ _ _ _ h
        omega
      | panic e => simp [hT] at h
      | outOfFuel => simp [hT] at h
    · intro acc p node q h
      simp only [parseExpressionLoop] at h
      split at h
      · rename_i hc
        have h0 := consumeToken_measure_lt p (by rw [hc.1]; rfl)
        cases hT : parseTerm n (consumeToken p) with
        | ok a =>
          obtain ⟨node1, p1⟩ := a
          rw [hT] at h
          have h1 := ihT _ _ _ hT
          have h2 := ihEL _ _ _ _ h
          omega
        | panic e => simp [hT] at h
        | outOfFuel => simp [hT] at h
      · simp only [Res.ok.injEq, Prod.mk.injEq] at h
        rw [h.2]
    · intro p node q h
      simp only [parseTerm] at h
      cases hT : parseFactor n p with
      | ok a =>
        obtain ⟨node1, p1⟩ := a
        rw [hT] at h
        have h1 := ihF _ _ _ hT
        have h2 := ihTL _ _ _ _ h
        omega
      | panic e => simp [hT] at h
      | outOfFuel => simp [hT] at h
    · intro acc p node q h
      simp only [parseTermLoop] at h
      split at h
      · rename_i hc
        have h0 := consumeToken_measure_lt p (by rw [hc.1]; rfl)
        cases hT : parseFactor n (consumeToken p) with
        | ok a =>
          obtain ⟨node1, p1⟩ := a
          rw [hT] at h
          have h1 := ihF _ _ _ hT
          have h2 := ihTL _ _ _ _ h
          omega
        | panic e => simp [hT] at h
        | outOfFuel => simp [hT] at h
      · simp only [Res.ok.injEq, Prod.mk.injEq] at h
        rw [h.2]
    · intro p node q h
      simp only [parseFactor] at h
      cases hty : p.currentToken.Typ <;> simp only [hty] at h
      · simp only [Res.ok.injEq, Prod.mk.injEq] at h
        rw [← h.2]
        exact consumeToken_measure_lt p (by rw [hty]; rfl)
      · simp at h
      · have h0 := consumeToken_measure_lt p (by rw [hty]; rfl)
        cases hT : parseExpression n (consumeToken p) with
        | ok a =>
          obtain ⟨node1, p1⟩ := a
          rw [hT] at h
          have h1 := ihE _ _ _ hT
          simp only at h
          split at h
          · simp at h
          · rename_i hc
            simp only [Res.ok.injEq, Prod.mk.injEq] at h
            have h2 := consumeToken_measure_lt p1 (by
              have : p1.currentToken.Typ = .TokenRightParen := by simpa using hc
              rw [this]; rfl)
            rw [← h.2]
            omega
        | panic e => simp [hT] at h
        | outOfFuel => simp [hT] at h
      · simp at h
      · simp at h
      · simp at h

/-- Fuel linear in the measure is enough for every parser function. -/
theorem fuel_enough (n : Nat) :
    (∀ p, 4 * p.measure + 3 ≤ n → parseExpression n p ≠ .outOfFuel) ∧
    (∀ acc p, 4 * p.measure + 2 ≤ n → parseExpressionLoop n acc p ≠ .outOfFuel) ∧
    (∀ p, 4 * p.measure + 2 ≤ n → parseTerm n p ≠ .outOfFuel) ∧
    (∀ acc p, 4 * p.measure + 1 ≤ n → parseTermLoop n acc p ≠ .outOfFuel) ∧
    (∀ p, 4 * p.measure + 1 ≤ n → parseFactor n p ≠ .outOfFuel) := by
  induction n with
  | zero =>
    refine ⟨?_, ?_, ?_, ?_, ?_⟩ <;> intros <;> omega
  | succ n ih =>
    obtain ⟨ihE, ihEL, ihT, ihTL, ihF⟩ := ih
    have hdec := measure_decrease n
    refine ⟨?_, ?_, ?_, ?_, ?_⟩
    · intro p hn
      simp only [parseExpression]
      cases hT : parseTerm n p with
      | ok a =>
        obtain ⟨node1, p1⟩ := a
        have h1 := hdec.2.2.1 _ _ _ hT
        exact ihEL _ _ (by omega)
      | panic e => simp
      | outOfFuel => exact absurd hT (ihT p (by omega))
    · intro acc p hn
      simp only [parseExpressionLoop]
      split
      · rename_i hc
        have h0 := consumeToken_measure_lt p (by rw [hc.1]; rfl)
        cases hT : parseTerm n (consumeToken p) with
        | ok a =>
          obtain ⟨node1, p1⟩ := a
          have h1 := hdec.2.2.1 _ _ _ hT
          exact ihEL _ _ (by omega)
        | panic e => simp
        | outOfFuel => exact absurd hT (ihT _ (by omega))
      · simp
    · intro p hn
      simp only [parseTerm]
      cases hT : parseFactor n p with
      | ok a =>
        obtain ⟨node1, p1⟩ := a
        have h1 := hdec.2.2.2.2 _ _ _ hT
        exact ihTL _ _ (by omega)
      | panic e => simp
      | outOfFuel => exact absurd hT (ihF p (by omega))
    · intro acc p hn
      simp only [parseTermLoop]
      split
      · rename_i hc
        have h0 := consumeToken_measure_lt p (by rw [hc.1]; rfl)
        cases hT : parseFactor n (consumeToken p) with
        | ok a =>
          obtain ⟨node1, p1⟩ := a
          have h1 := hdec.2.2.2.2 _ _ _ hT
          exact ihTL _ _ (by omega)
        | panic e => simp
        | outOfFuel => exact absurd hT (ihF _ (by omega))
      · simp
    · intro p hn
      simp only [parseFactor]
      cases hty : p.currentToken.Typ <;> simp only [] <;> try simp
      have h0 := consumeToken_measure_lt p (by rw [hty]; rfl)
      cases hT : parseExpression n (consumeToken p) with
      | ok a =>
        simp only
        split <;> simp
      | panic e => simp
      | outOfFuel => exact absurd hT (ihE _ (by omega))

theorem NewParser_measure (input : GoString) :
    (NewParser (NewLexer input)).measure ≤ input.length := by
  have h := consumeToken_measure { lexer := NewLexer input, currentToken := Token.zero }
  simpa [NewParser, Parser.rest, Lexer.rest, NewLexer] using h

/-- The fuel of `parse` is enough: `parse` never answers `outOfFuel`. -/
theorem parse_ne_outOfFuel (input : GoString) : parse input ≠ .outOfFuel := by
  have h := NewParser_measure input
  exact (fuel_enough _).1 _ (by unfold parseFuel; omega)

/-- A finished run of `parseExpression` on the fresh parser, with whatever
fuel, is the answer of `parse`. -/
theorem parse_eq_of_fuel {input : GoString} {n : Nat} {r : Res (Node × Parser)}
    (h : parseExpression n (NewParser (NewLexer input)) = r) (hr : r ≠ .outOfFuel) :
    parse input = r := by
  subst h
  have h1 := parse_ne_outOfFuel input
  unfold parse at h1 ⊢
  rcases Nat.le_total n (parseFuel input) with hle | hle
  · exact parseExpression_mono hr hle
  · exact (parseExpression_mono h1 hle).symm

/-! ## The parser only sees the token stream

`R` relates two unscanned remainders that `scan` cannot tell apart, now or
later. Parsers over such remainders, with the same lookahead, do the same. -/

theorem consumeToken_rel {R : GoString → GoString → Prop} (hR : ScanInvariant R)
    {p q : Parser} (h : ParserRel R p q) : ParserRel R (consumeToken p) (consumeToken q) := by
  have hp := consumeToken_scan p
  have hq := consumeToken_scan q
  have := hR _ _ h.2
  exact ⟨by rw [hp.1, hq.1, this.1], by rw [hp.2, hq.2]; exact this.2⟩

theorem simulation {R : GoString → GoString → Prop} (hR : ScanInvariant R) (n : Nat) :
    (∀ p q, ParserRel R p q → ResRel R (parseExpression n p) (parseExpression n q)) ∧
    (∀ acc p q, ParserRel R p q →
      ResRel R (parseExpressionLoop n acc p) (parseExpressionLoop n acc q)) ∧
    (∀ p q, ParserRel R p q → ResRel R (parseTerm n p) (parseTerm n q)) ∧
    (∀ acc p q, ParserRel R p q →
      ResRel R (parseTermLoop n acc p) (parseTermLoop n acc q)) ∧
    (∀ p q, ParserRel R p q → ResRel R (parseFactor n p) (parseFactor n q)) := by
  induction n with
  | zero =>
    refine ⟨?_, ?_, ?_, ?_, ?_⟩ <;> intros <;> simp [parseExpression, parseExpressionLoop,
      parseTerm, parseTermLoop, parseFactor, ResRel]
  | succ n ih =>
    obtain ⟨ihE, ihEL, ihT, ihTL, ihF⟩ := ih
    refine ⟨?_, ?_, ?_, ?_, ?_⟩
    · intro p q hpq
      simp only [parseExpression]
      have h := ihT p q hpq
      cases hT1 : parseTerm n p <;> cases hT2 : parseTerm n q <;> rw [hT1, hT2] at h <;>
        simp only [ResRel] at h ⊢
      · rename_i a b
        obtain ⟨n1, p1⟩ := a
        obtain ⟨n2, p2⟩ := b
        simp only at h ⊢
        rw [h.1]
        exact ihEL _ _ _ h.2
      · exact h
    · intro acc p q hpq
      simp only [parseExpressionLoop, ← hpq.1]
      split
      · have h := ihT _ _ (consumeToken_rel hR hpq)
        cases hT1 : parseTerm n (consumeToken p) <;> cases hT2 : parseTerm n (consumeToken q) <;>
          rw [hT1, hT2] at h <;> simp only [ResRel] at h ⊢
        · rename_i a b
          obtain ⟨n1, p1⟩ := a
          obtain ⟨n2, p2⟩ := b
          simp only at h ⊢
          rw [h.1]
          exact ihEL _ _ _ h.2
        · exact h
      · exact ⟨rfl, hpq⟩
    · intro p q hpq
      simp only [parseTerm]
      have h := ihF p q hpq
      cases hT1 : parseFactor n p <;> cases hT2 : parseFactor n q <;> rw [hT1, hT2] at h <;>
        simp only [ResRel] at h ⊢
      · rename_i a b
        obtain ⟨n1, p1⟩ := a
        obtain ⟨n2, p2⟩ := b
        simp only at h ⊢
        rw [h.1]
        exact ihTL _ _ _ h.2
      · exact h
    · intro acc p q hpq
      simp only [parseTermLoop, ← hpq.1]
      split
      · have h := ihF _ _ (consumeToken_rel hR hpq)
        cases hT1 : parseFactor n (consumeToken p) <;> cases hT2 : parseFactor n (consumeToken q) <;>
          rw [hT1, hT2] at h <;> simp only [ResRel] at h ⊢
        · rename_i a b
          obtain ⟨n1, p1⟩ := a
          obtain ⟨n2, p2⟩ := b
          simp only at h ⊢
          rw [h.1]
          exact ihTL _ _ _ h.2
        · exact h
      · exact ⟨rfl, hpq⟩
    · intro p q hpq
      simp only [parseFactor, ← hpq.1]
      cases hty : p.currentToken.Typ <;> simp only [ResRel]
      · exact ⟨trivial, consumeToken_rel hR hpq⟩
      · have h := ihE _ _ (consumeToken_rel hR hpq)
        cases hT1 : parseExpression n (consumeToken p) <;>
          cases hT2 : parseExpression n (consumeToken q) <;>
          rw [hT1, hT2] at h <;> simp only [ResRel] at h ⊢
        · rename_i a b
          obtain ⟨n1, p1⟩ := a
          obtain ⟨n2, p2⟩ := b
          simp only at h ⊢
          rw [← h.2.1]
          by_cases hc : p1.currentToken.Typ = .TokenRightParen
          · simp only [hc, ne_eq, not_true_eq_false, if_false]
            exact ⟨h.1, consumeToken_rel hR h.2⟩
          · simp only [hc, ne_eq, not_false_eq_true, if_true]
        · exact h

/-! ## Arithmetic of the evaluator -/

theorem wrap_of_fits (x : Int) (h1 : -(2 ^ 63) ≤ x) (h2 : x < 2 ^ 63) : wrap x = x := by
  unfold wrap
  omega

theorem wrap_natCast (n : Nat) (h : n < 2 ^ 63) : wrap (n : Int) = n :=
  wrap_of_fits _ (by omega) (by omega)

theorem str_plus : str "+" = [43] := by decide
theorem str_minus : str "-" = [45] := by decide
theorem str_times : str "*" = [42] := by decide
theorem str_slash : str "/" = [47] := by decide
theorem str_lparen : str "(" = [40] := by decide
theorem str_rparen : str ")" = [41] := by decide

theorem evaluate_div (l r : Node) (a b : Int) (hl : evaluate l = .ok a) (hr : evaluate r = .ok b) :
    evaluate (.BinOpNode l r (str "/")) =
      if b = 0 then .panic .divisionByZero else .ok (wrap (Int.tdiv a b)) := by
  simp [evaluate, hl, hr, str_plus, str_minus, str_times, str_slash]

theorem tmod_bounds_nonneg (a b : Int) (ha : 0 ≤ a) (hb : b ≠ 0) :
    0 ≤ Int.tmod a b ∧ Int.tmod a b < |b| := by
  refine ⟨Int.tmod_nonneg b ha, ?_⟩
  rcases lt_or_gt_of_ne hb with h | h
  · rw [abs_of_neg h, ← Int.tmod_neg]
    exact Int.tmod_lt_of_pos a (by omega)
  · rw [abs_of_pos h]
    exact Int.tmod_lt_of_pos a h

theorem tdiv_truncates (a b : Int) (hb : b ≠ 0) :
    ∃ r : Int, a = Int.tdiv a b * b + r ∧ |r| < |b| ∧
      (r = 0 ∨ (0 < r ∧ 0 < a) ∨ (r < 0 ∧ a < 0)) := by
  rcases le_or_lt 0 a with ha | ha
  · obtain ⟨h1, h2⟩ := tmod_bounds_nonneg a b ha hb
    refine ⟨Int.tmod a b, by have := Int.tmod_add_tdiv' a b; omega, by rw [abs_of_nonneg h1]; exact h2, ?_⟩
    rcases eq_or_lt_of_le h1 with h | h
    · exact Or.inl h.symm
    · refine Or.inr (Or.inl ⟨h, ?_⟩)
      rcases eq_or_lt_of_le ha with h0 | h0
      · rw [← h0] at h; simp at h
      · exact h0
  · obtain ⟨h1, h2⟩ := tmod_bounds_nonneg (-a) b (by omega) hb
    have h3 := Int.tmod_add_tdiv' (-a) b
    rw [Int.neg_tdiv] at h3
    refine ⟨-Int.tmod (-a) b, ?_, by rw [abs_neg, abs_of_nonneg h1]; exact h2, ?_⟩
    · have : -(a.tdiv b) * b = -(a.tdiv b * b) := by ring
      omega
    · rcases eq_or_lt_of_le h1 with h | h
      · exact Or.inl (by omega)
      · exact Or.inr (Or.inr ⟨by omega, ha⟩)

theorem tdiv_fits (a b : Int) (ha : -(2 ^ 63) ≤ a ∧ a < 2 ^ 63) (hb0 : b ≠ 0)
    (hov : ¬(a = -(2 ^ 63) ∧ b = -1)) :
    -(2 ^ 63) ≤ Int.tdiv a b ∧ Int.tdiv a b < 2 ^ 63 := by
  have hq : (Int.tdiv a b).natAbs = a.natAbs / b.natAbs := Int.natAbs_tdiv a b
  by_cases h1 : b = 1
  · subst h1; simp; omega
  by_cases h2 : b = -1
  · subst h2
    have : Int.tdiv a (-1) = -a := by rw [Int.tdiv_neg]; simp
    rw [this]
    constructor
    · omega
    · have : a ≠ -(2 ^ 63) := fun h => hov ⟨h, rfl⟩
      omega
  · have hb2 : 2 ≤ b.natAbs := by omega
    have : a.natAbs / b.natAbs ≤ a.natAbs / 2 := Nat.div_le_div_left hb2 (by norm_num)
    omega

/-! ## Division (C4, C5) -/

/-- C4: for a BinaryOp node with operator "/" whose two subtrees evaluate
successfully to `a` and `b`, `evaluate` fails with the division-by-zero panic
if and only if `b = 0`; otherwise it returns the (truncated, 64-bit) quotient. -/
theorem C4_division_by_zero_iff (l r : Node) (a b : Int)
    (hl : evaluate l = .ok a) (hr : evaluate r = .ok b) :
    (evaluate (.BinOpNode l r (str "/")) = .panic .divisionByZero ↔ b = 0) ∧
    (b ≠ 0 → evaluate (.BinOpNode l r (str "/")) = .ok (wrap (Int.tdiv a b))) := by
  rw [evaluate_div l r a b hl hr]
  by_cases hb : b = 0 <;> simp [hb]

/-- C4 at the line "1/0": the tree 1/0 and the whole pipeline fail with division by zero. -/
theorem C4_division_by_zero_iff_witness :
    (evaluate (.NumberNode 1) = .ok 1 ∧ evaluate (.NumberNode 0) = .ok 0) ∧
    ((evaluate (.BinOpNode (.NumberNode 1) (.NumberNode 0) (str "/")) = .panic .divisionByZero ↔
        (0 : Int) = 0) ∧
      ((0 : Int) ≠ 0 → evaluate (.BinOpNode (.NumberNode 1) (.NumberNode 0) (str "/")) =
        .ok (wrap (Int.tdiv 1 0)))) ∧
    evaluate_expression (str "1/0") = .panic .divisionByZero :=
  ⟨⟨rfl, rfl⟩, C4_division_by_zero_iff (.NumberNode 1) (.NumberNode 0) 1 0 rfl rfl, by decide⟩

/-- C5: integer division truncates toward zero. For a left value `a` in the
64-bit range and a non-zero right value `b`, other than the overflowing pair
minimum-integer / -1, `evaluate` of the "/" node returns the `q` with
`a = q * b + r`, `|r| < |b|` and `r` zero or of the sign of `a`. -/
theorem C5_division_truncates_toward_zero (l r : Node) (a b : Int)
    (hl : evaluate l = .ok a) (hr : evaluate r = .ok b)
    (ha : -(2 ^ 63) ≤ a ∧ a < 2 ^ 63) (hb0 : b ≠ 0) (hov : ¬(a = -(2 ^ 63) ∧ b = -1)) :
    ∃ q rem : Int, evaluate (.BinOpNode l r (str "/")) = .ok q ∧
      a = q * b + rem ∧ |rem| < |b| ∧ (rem = 0 ∨ (0 < rem ∧ 0 < a) ∨ (rem < 0 ∧ a < 0)) := by
  obtain ⟨rem, h1, h2, h3⟩ := tdiv_truncates a b hb0
  obtain ⟨f1, f2⟩ := tdiv_fits a b ha hb0 hov
  refine ⟨Int.tdiv a b, rem, ?_, h1, h2, h3⟩
  rw [evaluate_div l r a b hl hr, if_neg hb0, wrap_of_fits _ f1 f2]

/-- C5 at -7 / 2, with the lines "7/2" (3) and "(0-7)/2" (-3, not -4). -/
theorem C5_division_truncates_toward_zero_witness :
    (evaluate (.NumberNode (-7)) = .ok (-7) ∧ evaluate (.NumberNode 2) = .ok 2 ∧
      (-(2 ^ 63) ≤ (-7 : Int) ∧ (-7 : Int) < 2 ^ 63) ∧ (2 : Int) ≠ 0 ∧
      ¬((-7 : Int) = -(2 ^ 63) ∧ (2 : Int) = -1)) ∧
    (∃ q rem : Int, evaluate (.BinOpNode (.NumberNode (-7)) (.NumberNode 2) (str "/")) = .ok q ∧
      -7 = q * 2 + rem ∧ |rem| < |(2 : Int)| ∧
      (rem = 0 ∨ (0 < rem ∧ 0 < (-7 : Int)) ∨ (rem < 0 ∧ (-7 : Int) < 0))) ∧
    evaluate (.BinOpNode (.NumberNode (-7)) (.NumberNode 2) (str "/")) = .ok (-3) ∧
    evaluate_expression (str "7/2") = .ok 3 ∧
    evaluate_expression (str "(0-7)/2") = .ok (-3) :=
  ⟨⟨rfl, rfl, by decide, by decide, by decide⟩,
    C5_division_truncates_toward_zero (.NumberNode (-7)) (.NumberNode 2) (-7) 2 rfl rfl
      (by decide) (by decide) (by decide),
    by decide, by decide, by decide⟩

/-! ## A first token that starts no factor (C8) -/

theorem NewParser_currentToken (input : GoString) :
    (NewParser (NewLexer input)).currentToken = (NextToken (NewLexer input)).1 := rfl

/-- C8: when the first token of the input is neither a Number nor a LeftParen
(empty or blank input, a leading operator, a leading right parenthesis, a
leading unrecognized character), parsing fails with the unexpected-token
panic and the line produces no integer. -/
theorem C8_unexpected_first_token (input : GoString)
    (h1 : (NextToken (NewLexer input)).1.Typ ≠ .TokenNumber)
    (h2 : (NextToken (NewLexer input)).1.Typ ≠ .TokenLeftParen) :
    parse input = .panic .unexpectedToken ∧
      evaluate_expression input = .panic .unexpectedToken := by
  have h3 : parseExpression 3 (NewParser (NewLexer input)) = .panic .unexpectedToken := by
    rw [← NewParser_currentToken] at h1 h2
    simp only [parseExpression, parseTerm, parseFactor]
  have hp : parse input = .panic .unexpectedToken := parse_eq_of_fuel h3 (by simp)
  exact ⟨hp, by simp [evaluate_expression, hp]⟩

/-- C8 at "-5", and the empty line, a blank line, ")" and "a" likewise. -/
theorem C8_unexpected_first_token_witness :
    ((NextToken (NewLexer (str "-5"))).1.Typ ≠ .TokenNumber ∧
      (NextToken (NewLexer (str "-5"))).1.Typ ≠ .TokenLeftParen) ∧
    (parse (str "-5") = .panic .unexpectedToken ∧
      evaluate_expression (str "-5") = .panic .unexpectedToken) ∧
    evaluate_expression (str "") = .panic .unexpectedToken ∧
    evaluate_expression (str "  \t") = .panic .unexpectedToken ∧
    evaluate_expression (str ")") = .panic .unexpectedToken ∧
    evaluate_expression (str "a") = .panic .unexpectedToken :=
  ⟨⟨by decide, by decide⟩, C8_unexpected_first_token (str "-5") (by decide) (by decide),
    (C8_unexpected_first_token (str "") (by decide) (by decide)).2,
    (C8_unexpected_first_token (str "  \t") (by decide) (by decide)).2,
    (C8_unexpected_first_token (str ")") (by decide) (by decide)).2,
    (C8_unexpected_first_token (str "a") (by decide) (by decide)).2⟩

/-! ## Scanning and parsing known text -/

theorem isSpace_of_isDigit {c : Nat} (h : isDigit c = true) : isSpace c = false := by
  simp only [isDigit, Bool.and_eq_true, decide_eq_true_eq] at h
  simp only [isSpace, Bool.or_eq_false_iff, beq_eq_false_iff_ne]
  omega

theorem takeWhile_digits (d rest : GoString) (hd : ∀ c ∈ d, isDigit c = true)
    (hrest : startsWithDigit rest = false) :
    (d ++ rest).takeWhile isDigit = d ∧ (d ++ rest).dropWhile isDigit = rest := by
  induction d with
  | nil =>
    cases rest with
    | nil => simp
    | cons c rest =>
      have : isDigit c = false := hrest
      simp [List.takeWhile_cons, List.dropWhile_cons, this]
  | cons c d ih =>
    have hc : isDigit c = true := hd c (by simp)
    have := ih (fun x hx => hd x (by simp [hx]))
    simp [List.takeWhile_cons, List.dropWhile_cons, hc, this]

theorem scan_nil : scan [] = (⟨.TokenEOF, []⟩, []) := rfl

theorem scan_literal (d rest : GoString) (hd : IsLiteral d)
    (hrest : startsWithDigit rest = false) :
    scan (d ++ rest) = (⟨.TokenNumber, d⟩, rest) := by
  obtain ⟨hne, hd⟩ := hd
  cases d with
  | nil => exact absurd rfl hne
  | cons c d =>
    have hc : isDigit c = true := hd c (by simp)
    have hs := isSpace_of_isDigit hc
    have ht := takeWhile_digits (c :: d) rest hd hrest
    simp only [List.cons_append] at ht
    simp only [scan, List.cons_append, List.dropWhile_cons, hs, Bool.false_eq_true, if_false,
      hc, if_true, ht.1, ht.2]

theorem scan_operator (c : Nat) (rest : GoString) (hc : c = 43 ∨ c = 45 ∨ c = 42 ∨ c = 47) :
    scan (c :: rest) = (⟨.TokenOperator, [c]⟩, rest) := by
  rcases hc with h | h | h | h <;> subst h <;>
    simp [scan, List.dropWhile_cons, isSpace, isDigit, isOperatorChar, stringOfByte] <;> decide

theorem scan_leftParen (rest : GoString) :
    scan (40 :: rest) = (⟨.TokenLeftParen, [40]⟩, rest) := by
  simp [scan, List.dropWhile_cons, isSpace, isDigit, isOperatorChar, stringOfByte]
  decide

theorem scan_rightParen (rest : GoString) :
    scan (41 :: rest) = (⟨.TokenRightParen, [41]⟩, rest) := by
  simp [scan, List.dropWhile_cons, isSpace, isDigit, isOperatorChar, stringOfByte]
  decide

theorem At_consumeToken {p : Parser} {tok : Token} {s : GoString} (h : p.At tok s) :
    (consumeToken p).At (scan s).1 (scan s).2 := by
  have hc := consumeToken_scan p
  rw [h.2] at hc
  exact hc

theorem At_NewParser (input : GoString) :
    (NewParser (NewLexer input)).At (scan input).1 (scan input).2 := by
  have hc := consumeToken_scan { lexer := NewLexer input, currentToken := Token.zero }
  exact hc

theorem digit_sub_le {c : Nat} (hc : isDigit c = true) : c - 48 ≤ 9 := by
  simp only [isDigit, Bool.and_eq_true, decide_eq_true_eq] at hc; omega

theorem foldl_digits_ge (s : GoString) (n : Nat) :
    n ≤ s.foldl (fun acc c => 10 * acc + (c - 48)) n := by
  induction s generalizing n with
  | nil => exact Nat.le_refl _
  | cons c s ih =>
    simp only [List.foldl_cons]
    exact Nat.le_trans (by omega) (ih _)

theorem foldl_digits_lt (s : GoString) (hs : ∀ c ∈ s, isDigit c = true) (n : Nat) :
    s.foldl (fun acc c => 10 * acc + (c - 48)) n < (n + 1) * 10 ^ s.length := by
  induction s generalizing n with
  | nil => simp
  | cons c s ih =>
    simp only [List.foldl_cons, List.length_cons]
    have hc := digit_sub_le (hs c (by simp))
    have h1 := ih (fun x hx => hs x (by simp [hx])) (10 * n + (c - 48))
    have h2 : (10 * n + (c - 48) + 1) * 10 ^ s.length ≤ (n + 1) * 10 ^ (s.length + 1) := by
      rw [pow_succ, ← Nat.mul_assoc, Nat.mul_right_comm]
      exact Nat.mul_le_mul_right _ (by omega)
    omega

theorem atoiFastLoop_digits (s : GoString) (hs : ∀ c ∈ s, isDigit c = true) (n : Nat) :
    atoiFastLoop s n = some (s.foldl (fun acc c => 10 * acc + (c - 48)) n) := by
  induction s generalizing n with
  | nil => rfl
  | cons c s ih =>
    have hc := hs c (by simp)
    simp only [atoiFastLoop, hc, if_true, List.foldl_cons]
    rw [ih (fun x hx => hs x (by simp [hx])), Nat.mul_comm]

theorem parseUintLoop_digits (s : GoString) (hs : ∀ c ∈ s, isDigit c = true) (n : Nat)
    (hn : n ≤ 2 ^ 64 - 1) :
    parseUintLoop s n =
      if s.foldl (fun acc c => 10 * acc + (c - 48)) n ≤ 2 ^ 64 - 1
      then (s.foldl (fun acc c => 10 * acc + (c - 48)) n, none)
      else (2 ^ 64 - 1, some .ErrRange) := by
  induction s generalizing n with
  | nil =>
    simp only [parseUintLoop, List.foldl_nil]
    rw [if_pos hn]
  | cons c s ih =>
    have hc := hs c (by simp)
    have hge := foldl_digits_ge s (10 * n + (c - 48))
    simp only [parseUintLoop, hc, if_true, List.foldl_cons]
    by_cases h1 : (2 ^ 64 - 1) / 10 + 1 ≤ n
    · rw [if_pos h1, if_neg (by omega)]
    · rw [if_neg h1]
      by_cases h2 : 2 ^ 64 - 1 < n * 10 + (c - 48)
      · rw [if_pos h2, if_neg (by omega)]
      · rw [if_neg h2, ih (fun x hx => hs x (by simp [hx])) _ (by omega), Nat.mul_comm]

theorem Atoi_literal (d : GoString) (hd : IsLiteral d) :
    Atoi d = if 2 ^ 63 ≤ digitsValue d then (2 ^ 63 - 1, some .ErrRange)
      else ((digitsValue d : Int), none) := by
  obtain ⟨hne, hd⟩ := hd
  cases d with
  | nil => exact absurd rfl hne
  | cons c d =>
    have hc : isDigit c = true := hd c (by simp)
    have h43 : c ≠ 43 := by
      simp only [isDigit, Bool.and_eq_true, decide_eq_true_eq] at hc; omega
    have h45 : c ≠ 45 := by
      simp only [isDigit, Bool.and_eq_true, decide_eq_true_eq] at hc; omega
    have e43 : (some c == some (43 : Nat)) = false := by simp [h43]
    have e45 : (some c == some (45 : Nat)) = false := by simp [h45]
    by_cases hlen : 0 < (c :: d).length ∧ (c :: d).length < 19
    · have hlt := foldl_digits_lt (c :: d) hd 0
      have hval : digitsValue (c :: d) < 2 ^ 63 := by
        unfold digitsValue
        have : (0 + 1) * 10 ^ (c :: d).length ≤ 10 ^ 18 := by
          rw [Nat.zero_add, Nat.one_mul]
          exact Nat.pow_le_pow_right (by norm_num) (by omega)
        have h18 : (10 : Nat) ^ 18 < 2 ^ 63 := by norm_num
        omega
      have hfast := atoiFastLoop_digits (c :: d) hd 0
      rw [if_neg (by omega)]
      simp only [Atoi, hlen, and_self, if_true, List.head?_cons, e43, e45, Bool.or_self,
        Bool.false_eq_true, if_false, Bool.false_and, hfast]
      rfl
    · have hloop := parseUintLoop_digits (c :: d) hd 0 (by norm_num)
      have hdv : (c :: d).foldl (fun acc c => 10 * acc + (c - 48)) 0 = digitsValue (c :: d) := rfl
      rw [hdv] at hloop
      simp only [Atoi, hlen, if_false, ParseInt, ParseUint, List.isEmpty_cons,
        Bool.false_eq_true, List.head?_cons, e43, e45, Bool.or_self, hloop]
      by_cases hu : digitsValue (c :: d) ≤ 2 ^ 64 - 1
      · simp only [if_pos hu]
        by_cases h63 : 2 ^ 63 ≤ digitsValue (c :: d)
        · simp [h63]
        · simp [h63]
      · have h63 : 2 ^ 63 ≤ digitsValue (c :: d) := by omega
        simp only [if_neg hu, if_pos h63]
        simp

/-- The model of Atoi on texts that are not digit runs: a range error met
while scanning wins over a bad byte after it, a bad byte met first is a
syntax error with value 0; signs and bounds as in Go. -/
theorem Atoi_examples :
    Atoi (str "99999999999999999999a") = (9223372036854775807, some .ErrRange) ∧
    Atoi (str "9223372036854775808a") = (0, some .ErrSyntax) ∧
    Atoi (str "12a") = (0, some .ErrSyntax) ∧
    Atoi (str "") = (0, some .ErrSyntax) ∧
    Atoi (str "+") = (0, some .ErrSyntax) ∧
    Atoi (str "-12") = (-12, none) ∧
    Atoi (str "9223372036854775807") = (9223372036854775807, none) ∧
    Atoi (str "9223372036854775808") = (9223372036854775807, some .ErrRange) ∧
    Atoi (str "-9223372036854775808") = (-9223372036854775808, none) ∧
    Atoi (str "-9223372036854775809") = (-9223372036854775808, some .ErrRange) := by
  decide

theorem parseFactor_number (n : Nat) (p : Parser) (d : GoString)
    (h : p.currentToken = ⟨.TokenNumber, d⟩) :
    parseFactor (n + 1) p = .ok (.NumberNode (Atoi d).1, consumeToken p) := by
  simp [parseFactor, h]

theorem parseTermLoop_exit (n : Nat) (acc : Node) (p : Parser)
    (h : ¬(p.currentToken.Typ = .TokenOperator ∧
      (p.currentToken.Value = str "*" ∨ p.currentToken.Value = str "/"))) :
    parseTermLoop (n + 1) acc p = .ok (acc, p) := by
  simp only [parseTermLoop, h, if_false]

theorem parseExpressionLoop_exit (n : Nat) (acc : Node) (p : Parser)
    (h : ¬(p.currentToken.Typ = .TokenOperator ∧
      (p.currentToken.Value = str "+" ∨ p.currentToken.Value = str "-"))) :
    parseExpressionLoop (n + 1) acc p = .ok (acc, p) := by
  simp only [parseExpressionLoop, h, if_false]

theorem tokenEOF_not_operator (p : Parser) (v : GoString)
    (h : p.currentToken = ⟨.TokenEOF, v⟩) (a b : GoString) :
    ¬(p.currentToken.Typ = .TokenOperator ∧ (p.currentToken.Value = a ∨ p.currentToken.Value = b)) := by
  rw [h]; simp

/-! ## A single literal (C3) -/

/-- C3: for a non-empty string `d` of decimal digits (leading zeros allowed)
whose base-10 value fits the 64-bit integer, the lexer yields one Number token
carrying `d`, the parser returns the Literal of that value with the lookahead
at end of input, and the line evaluates to exactly that value. -/
theorem C3_literal_evaluates_to_its_value (d : GoString) (hd : IsLiteral d)
    (hfit : digitsValue d < 2 ^ 63) :
    (NextToken (NewLexer d)).1 = ⟨.TokenNumber, d⟩ ∧
    (∃ q, parse d = .ok (.NumberNode (digitsValue d), q) ∧ q.currentToken.Typ = .TokenEOF) ∧
    evaluate_expression d = .ok (digitsValue d) := by
  have h0 := At_NewParser d
  have hs : scan d = (⟨.TokenNumber, d⟩, []) := by
    have := scan_literal d [] hd rfl
    simpa using this
  rw [hs] at h0
  have h1 := At_consumeToken h0
  rw [scan_nil] at h1
  have hA : (Atoi d).1 = (digitsValue d : Int) := by
    rw [Atoi_literal d hd, if_neg (by omega)]
  have hp : parse d = .ok (.NumberNode (digitsValue d), consumeToken (NewParser (NewLexer d))) := by
    apply parse_eq_of_fuel _ (by simp)
    · exact 3
    · simp only [parseExpression, parseTerm, parseFactor_number 0 _ d h0.1,
        parseTermLoop_exit 0 _ _ (tokenEOF_not_operator _ _ h1.1 _ _),
        parseExpressionLoop_exit 1 _ _ (tokenEOF_not_operator _ _ h1.1 _ _), hA]
  refine ⟨?_, ⟨_, hp, by rw [h1.1]⟩, ?_⟩
  · rw [← NewParser_currentToken]; exact h0.1
  · simp [evaluate_expression, hp, evaluate]

/-- C3 at the literal "0042": one Number token, value 42. -/
theorem C3_literal_evaluates_to_its_value_witness :
    (IsLiteral (str "0042") ∧ digitsValue (str "0042") < 2 ^ 63) ∧
    ((NextToken (NewLexer (str "0042"))).1 = ⟨.TokenNumber, str "0042"⟩ ∧
      (∃ q, parse (str "0042") = .ok (.NumberNode (digitsValue (str "0042")), q) ∧
        q.currentToken.Typ = .TokenEOF) ∧
      evaluate_expression (str "0042") = .ok (digitsValue (str "0042"))) ∧
    digitsValue (str "0042") = 42 ∧ evaluate_expression (str "0042") = .ok 42 :=
  ⟨⟨by decide, by decide⟩,
    C3_literal_evaluates_to_its_value (str "0042") (by decide) (by decide),
    by decide, by decide⟩

/-! ## Finished runs, without the fuel

`ExprOk p node q`: some amount of fuel lets `parseExpression` return `node`
from the parser state `p`, leaving the state `q`; likewise for the other
parser functions. -/

theorem factorOk_number {p : Parser} {d : GoString} (h : p.currentToken = ⟨.TokenNumber, d⟩) :
    FactorOk p (.NumberNode (Atoi d).1) (consumeToken p) :=
  ⟨1, parseFactor_number 0 p d h⟩

theorem factorOk_paren {p q : Parser} {node : Node} (h : p.currentToken.Typ = .TokenLeftParen)
    (he : ExprOk (consumeToken p) node q) (hq : q.currentToken.Typ = .TokenRightParen) :
    FactorOk p node (consumeToken q) := by
  obtain ⟨n, hn⟩ := he
  exact ⟨n + 1, by simp [parseFactor, h, hn, hq]⟩

theorem termLoopOk_exit {p : Parser} (acc : Node)
    (h : ¬(p.currentToken.Typ = .TokenOperator ∧
      (p.currentToken.Value = str "*" ∨ p.currentToken.Value = str "/"))) :
    TermLoopOk acc p acc p :=
  ⟨1, parseTermLoop_exit 0 acc p h⟩

theorem termLoopOk_step {p q1 q : Parser} {acc right node : Node} {op : GoString}
    (h : p.currentToken = ⟨.TokenOperator, op⟩) (hop : op = str "*" ∨ op = str "/")
    (hf : FactorOk (consumeToken p) right q1)
    (hl : TermLoopOk (.BinOpNode acc right op) q1 node q) : TermLoopOk acc p node q := by
  obtain ⟨n1, h1⟩ := hf
  obtain ⟨n2, h2⟩ := hl
  refine ⟨max n1 n2 + 1, ?_⟩
  have e1 := parseFactor_mono (by rw [h1]; simp) (Nat.le_max_left n1 n2)
  have e2 := parseTermLoop_mono (by rw [h2]; simp) (Nat.le_max_right n1 n2)
  rw [h1] at e1
  rw [h2] at e2
  have hc : p.currentToken.Typ = .TokenOperator ∧
      (p.currentToken.Value = str "*" ∨ p.currentToken.Value = str "/") := by
    rw [h]; exact ⟨rfl, hop⟩
  simp only [parseTermLoop, hc, and_self, if_true, e1]
  rw [h]
  exact e2

theorem termOk_intro {p q1 q : Parser} {node1 node : Node} (hf : FactorOk p node1 q1)
    (hl : TermLoopOk node1 q1 node q) : TermOk p node q := by
  obtain ⟨n1, h1⟩ := hf
  obtain ⟨n2, h2⟩ := hl
  refine ⟨max n1 n2 + 1, ?_⟩
  have e1 := parseFactor_mono (by rw [h1]; simp) (Nat.le_max_left n1 n2)
  have e2 := parseTermLoop_mono (by rw [h2]; simp) (Nat.le_max_right n1 n2)
  rw [h1] at e1
  rw [h2] at e2
  simp only [parseTerm, e1]
  exact e2

theorem exprLoopOk_exit {p : Parser} (acc : Node)
    (h : ¬(p.currentToken.Typ = .TokenOperator ∧
      (p.currentToken.Value = str "+" ∨ p.currentToken.Value = str "-"))) :
    ExprLoopOk acc p acc p :=
  ⟨1, parseExpressionLoop_exit 0 acc p h⟩

theorem exprLoopOk_step {p q1 q : Parser} {acc right node : Node} {op : GoString}
    (h : p.currentToken = ⟨.TokenOperator, op⟩) (hop : op = str "+" ∨ op = str "-")
    (hf : TermOk (consumeToken p) right q1)
    (hl : ExprLoopOk (.BinOpNode acc right op) q1 node q) : ExprLoopOk acc p node q := by
  obtain ⟨n1, h1⟩ := hf
  obtain ⟨n2, h2⟩ := hl
  refine ⟨max n1 n2 + 1, ?_⟩
  have e1 := parseTerm_mono (by rw [h1]; simp) (Nat.le_max_left n1 n2)
  have e2 := parseExpressionLoop_mono (by rw [h2]; simp) (Nat.le_max_right n1 n2)
  rw [h1] at e1
  rw [h2] at e2
  have hc : p.currentToken.Typ = .TokenOperator ∧
      (p.currentToken.Value = str "+" ∨ p.currentToken.Value = str "-") := by
    rw [h]; exact ⟨rfl, hop⟩
  simp only [parseExpressionLoop, hc, and_self, if_true, e1]
  rw [h]
  exact e2

theorem exprOk_intro {p q1 q : Parser} {node1 node : Node} (hf : TermOk p node1 q1)
    (hl : ExprLoopOk node1 q1 node q) : ExprOk p node q := by
  obtain ⟨n1, h1⟩ := hf
  obtain ⟨n2, h2⟩ := hl
  refine ⟨max n1 n2 + 1, ?_⟩
  have e1 := parseTerm_mono (by rw [h1]; simp) (Nat.le_max_left n1 n2)
  have e2 := parseExpressionLoop_mono (by rw [h2]; simp) (Nat.le_max_right n1 n2)
  rw [h1] at e1
  rw [h2] at e2
  simp only [parseExpression, e1]
  exact e2

theorem parse_of_ExprOk {input : GoString} {node : Node} {q : Parser}
    (h : ExprOk (NewParser (NewLexer input)) node q) : parse input = .ok (node, q) := by
  obtain ⟨n, hn⟩ := h
  exact parse_eq_of_fuel hn (by simp)

/-- A finished run from the fresh parser is what `parse` returns, and conversely. -/
theorem parse_eq_ok_iff (input : GoString) (node : Node) (q : Parser) :
    parse input = .ok (node, q) ↔ ExprOk (NewParser (NewLexer input)) node q := by
  constructor
  · intro h; exact ⟨_, h⟩
  · rintro ⟨n, hn⟩; exact parse_eq_of_fuel hn (by simp)

theorem Atoi_fits (d : GoString) (hd : IsLiteral d) (hfit : digitsValue d < 2 ^ 63) :
    (Atoi d).1 = (digitsValue d : Int) := by
  rw [Atoi_literal d hd, if_neg (by omega)]

theorem evaluate_of_parse {input : GoString} {node : Node} {q : Parser}
    (h : parse input = .ok (node, q)) : evaluate_expression input = evaluate node := by
  simp [evaluate_expression, h]

/-! ## Precedence (C1) -/

theorem parse_sum_product (a b c : GoString) (ha : IsLiteral a) (hb : IsLiteral b)
    (hc : IsLiteral c) :
    ∃ q, parse (a ++ str "+" ++ b ++ str "*" ++ c) =
      .ok (.BinOpNode (.NumberNode (Atoi a).1)
        (.BinOpNode (.NumberNode (Atoi b).1) (.NumberNode (Atoi c).1) [42]) [43], q) := by
  have htxt : a ++ str "+" ++ b ++ str "*" ++ c = a ++ 43 :: (b ++ 42 :: (c ++ [])) := by
    simp [str_plus, str_times]
  rw [htxt]
  have h0 := At_NewParser (a ++ 43 :: (b ++ 42 :: (c ++ [])))
  rw [scan_literal a _ ha (by rfl)] at h0
  have h1 := At_consumeToken h0
  rw [scan_operator 43 _ (by simp)] at h1
  have h2 := At_consumeToken h1
  rw [scan_literal b _ hb (by rfl)] at h2
  have h3 := At_consumeToken h2
  rw [scan_operator 42 _ (by simp)] at h3
  have h4 := At_consumeToken h3
  rw [scan_literal c _ hc (by rfl)] at h4
  have h5 := At_consumeToken h4
  rw [scan_nil] at h5
  simp only at h0 h1 h2 h3 h4 h5
  have e : ExprOk (NewParser (NewLexer (a ++ 43 :: (b ++ 42 :: (c ++ []))))) _ _ :=
    exprOk_intro
      (termOk_intro (factorOk_number h0.1)
        (termLoopOk_exit _ (by rw [h1.1]; simp [str_times, str_slash])))
      (exprLoopOk_step h1.1 (Or.inl str_plus.symm)
        (termOk_intro (factorOk_number h2.1)
          (termLoopOk_step h3.1 (Or.inl str_times.symm) (factorOk_number h4.1)
            (termLoopOk_exit _ (by rw [h5.1]; simp))))
        (exprLoopOk_exit _ (by rw [h5.1]; simp)))
  exact ⟨_, parse_of_ExprOk e⟩

theorem parse_paren_sum_product (a b c : GoString) (ha : IsLiteral a) (hb : IsLiteral b)
    (hc : IsLiteral c) :
    ∃ q, parse (str "(" ++ a ++ str "+" ++ b ++ str ")" ++ str "*" ++ c) =
      .ok (.BinOpNode (.BinOpNode (.NumberNode (Atoi a).1) (.NumberNode (Atoi b).1) [43])
        (.NumberNode (Atoi c).1) [42], q) := by
  have htxt : str "(" ++ a ++ str "+" ++ b ++ str ")" ++ str "*" ++ c =
      40 :: (a ++ 43 :: (b ++ 41 :: 42 :: (c ++ []))) := by
    simp [str_plus, str_times, str_lparen, str_rparen]
  rw [htxt]
  have h0 := At_NewParser (40 :: (a ++ 43 :: (b ++ 41 :: 42 :: (c ++ []))))
  rw [scan_leftParen] at h0
  have h1 := At_consumeToken h0
  rw [scan_literal a _ ha (by rfl)] at h1
  have h2 := At_consumeToken h1
  rw [scan_operator 43 _ (by simp)] at h2
  have h3 := At_consumeToken h2
  rw [scan_literal b _ hb (by rfl)] at h3
  have h4 := At_consumeToken h3
  rw [scan_rightParen] at h4
  have h5 := At_consumeToken h4
  rw [scan_operator 42 _ (by simp)] at h5
  have h6 := At_consumeToken h5
  rw [scan_literal c _ hc (by rfl)] at h6
  have h7 := At_consumeToken h6
  rw [scan_nil] at h7
  simp only at h0 h1 h2 h3 h4 h5 h6 h7
  have inner : ExprOk (consumeToken (NewParser (NewLexer
      (40 :: (a ++ 43 :: (b ++ 41 :: 42 :: (c ++ []))))))) _ _ :=
    exprOk_intro
      (termOk_intro (factorOk_number h1.1)
        (termLoopOk_exit _ (by rw [h2.1]; simp [str_times, str_slash])))
      (exprLoopOk_step h2.1 (Or.inl str_plus.symm)
        (termOk_intro (factorOk_number h3.1) (termLoopOk_exit _ (by rw [h4.1]; simp)))
        (exprLoopOk_exit _ (by rw [h4.1]; simp)))
  have e : ExprOk (NewParser (NewLexer (40 :: (a ++ 43 :: (b ++ 41 :: 42 :: (c ++ [])))))) _ _ :=
    exprOk_intro
      (termOk_intro (factorOk_paren (by rw [h0.1]) inner (by rw [h4.1]))
        (termLoopOk_step h5.1 (Or.inl str_times.symm) (factorOk_number h6.1)
          (termLoopOk_exit _ (by rw [h7.1]; simp))))
      (exprLoopOk_exit _ (by rw [h7.1]; simp))
  exact ⟨_, parse_of_ExprOk e⟩

/-- C1: multiplication binds tighter than addition and parentheses override
that. For decimal literals `a`, `b`, `c` whose values and intermediate results
fit the 64-bit integer, the line "a+b*c" evaluates to `a + (b * c)` and the
line "(a+b)*c" evaluates to `(a + b) * c`. -/
theorem C1_precedence_and_parentheses (a b c : GoString)
    (ha : IsLiteral a) (hb : IsLiteral b) (hc : IsLiteral c)
    (hfa : digitsValue a < 2 ^ 63) (hfb : digitsValue b < 2 ^ 63) (hfc : digitsValue c < 2 ^ 63) :
    (digitsValue b * digitsValue c < 2 ^ 63 →
      digitsValue a + digitsValue b * digitsValue c < 2 ^ 63 →
      evaluate_expression (a ++ str "+" ++ b ++ str "*" ++ c) =
        .ok ((digitsValue a : Int) + digitsValue b * digitsValue c)) ∧
    (digitsValue a + digitsValue b < 2 ^ 63 →
      (digitsValue a + digitsValue b) * digitsValue c < 2 ^ 63 →
      evaluate_expression (str "(" ++ a ++ str "+" ++ b ++ str ")" ++ str "*" ++ c) =
        .ok (((digitsValue a : Int) + digitsValue b) * digitsValue c)) := by
  constructor
  · intro h1 h2
    obtain ⟨q, hq⟩ := parse_sum_product a b c ha hb hc
    rw [evaluate_of_parse hq, Atoi_fits a ha hfa, Atoi_fits b hb hfb, Atoi_fits c hc hfc]
    have e1 : wrap ((digitsValue b : Int) * digitsValue c) =
        (digitsValue b : Int) * digitsValue c :=
      by have := wrap_natCast _ h1; push_cast at this; exact this
    have e2 : wrap ((digitsValue a : Int) + (digitsValue b : Int) * digitsValue c) =
        (digitsValue a : Int) + (digitsValue b : Int) * digitsValue c :=
      by have := wrap_natCast _ h2; push_cast at this; exact this
    simp [evaluate, str_plus, str_minus, str_times, e1, e2]
  · intro h1 h2
    obtain ⟨q, hq⟩ := parse_paren_sum_product a b c ha hb hc
    rw [evaluate_of_parse hq, Atoi_fits a ha hfa, Atoi_fits b hb hfb, Atoi_fits c hc hfc]
    have e1 : wrap ((digitsValue a : Int) + digitsValue b) =
        (digitsValue a : Int) + digitsValue b :=
      by have := wrap_natCast _ h1; push_cast at this; exact this
    have e2 : wrap (((digitsValue a : Int) + digitsValue b) * digitsValue c) =
        ((digitsValue a : Int) + digitsValue b) * digitsValue c :=
      by have := wrap_natCast _ h2; push_cast at this; exact this
    simp [evaluate, str_plus, str_minus, str_times, e1, e2]

/-- C1 at the literals 2, 3, 4: "2+3*4" gives 14 and "(2+3)*4" gives 20. -/
theorem C1_precedence_and_parentheses_witness :
    (IsLiteral (str "2") ∧ IsLiteral (str "3") ∧ IsLiteral (str "4") ∧
      digitsValue (str "2") < 2 ^ 63 ∧ digitsValue (str "3") < 2 ^ 63 ∧
      digitsValue (str "4") < 2 ^ 63) ∧
    evaluate_expression (str "2" ++ str "+" ++ str "3" ++ str "*" ++ str "4") =
      .ok ((digitsValue (str "2") : Int) + digitsValue (str "3") * digitsValue (str "4")) ∧
    evaluate_expression (str "(" ++ str "2" ++ str "+" ++ str "3" ++ str ")" ++ str "*" ++ str "4") =
      .ok (((digitsValue (str "2") : Int) + digitsValue (str "3")) * digitsValue (str "4")) ∧
    evaluate_expression (str "2+3*4") = .ok 14 ∧
    evaluate_expression (str "(2+3)*4") = .ok 20 :=
  ⟨by decide,
    (C1_precedence_and_parentheses (str "2") (str "3") (str "4") (by decide) (by decide)
      (by decide) (by decide) (by decide) (by decide)).1 (by decide) (by decide),
    (C1_precedence_and_parentheses (str "2") (str "3") (str "4") (by decide) (by decide)
      (by decide) (by decide) (by decide) (by decide)).2 (by decide) (by decide),
    by decide, by decide⟩

/-! ## Left associativity (C2) -/

theorem str_plus_minus : str "+-" = [43, 45] := by decide
theorem str_times_slash : str "*/" = [42, 47] := by decide

theorem chainText_cons (o : Nat) (d : GoString) (chain : List (Nat × GoString)) :
    chainText ((o, d) :: chain) = o :: (d ++ chainText chain) := by
  simp [chainText]

theorem startsWithDigit_chainText (chain : List (Nat × GoString))
    (hops : ∀ x ∈ chain, x.1 = 43 ∨ x.1 = 45 ∨ x.1 = 42 ∨ x.1 = 47) :
    startsWithDigit (chainText chain) = false := by
  cases chain with
  | nil => rfl
  | cons x chain =>
    obtain ⟨o, d⟩ := x
    rw [chainText_cons]
    have := hops (o, d) (by simp)
    simp only at this
    rcases this with h | h | h | h <;> subst h <;> rfl

theorem evaluate_binOp_congr (l : Node) (x : Nat × GoString) :
    evaluate (.BinOpNode l (.NumberNode (Atoi x.2).1) [x.1]) = chainStep (evaluate l) x := by
  cases h : evaluate l <;> simp [evaluate, chainStep, h]

theorem evaluate_leftNest (acc : Node) (chain : List (Nat × GoString)) :
    evaluate (leftNest acc chain) = chain.foldl chainStep (evaluate acc) := by
  induction chain generalizing acc with
  | nil => rfl
  | cons x chain ih =>
    simp only [leftNest, List.foldl_cons] at ih ⊢
    rw [ih, evaluate_binOp_congr]

/-- The lookahead in front of a chain: end of input, or its first operator. -/
theorem scan_chainText (chain : List (Nat × GoString))
    (hops : ∀ x ∈ chain, x.1 = 43 ∨ x.1 = 45 ∨ x.1 = 42 ∨ x.1 = 47) :
    scan (chainText chain) =
      match chain with
      | [] => (⟨.TokenEOF, []⟩, [])
      | x :: rest => (⟨.TokenOperator, [x.1]⟩, x.2 ++ chainText rest) := by
  cases chain with
  | nil => rfl
  | cons x chain =>
    obtain ⟨o, d⟩ := x
    rw [chainText_cons]
    exact scan_operator o _ (hops (o, d) (by simp))

theorem exprLoop_chain (chain : List (Nat × GoString))
    (hlit : ∀ x ∈ chain, IsLiteral x.2) (hops : ∀ x ∈ chain, x.1 = 43 ∨ x.1 = 45)
    (acc : Node) (p : Parser)
    (hp : p.At (scan (chainText chain)).1 (scan (chainText chain)).2) :
    ∃ q, ExprLoopOk acc p (leftNest acc chain) q ∧ q.currentToken.Typ = .TokenEOF := by
  induction chain generalizing acc p with
  | nil =>
    rw [show chainText [] = [] from rfl, scan_nil] at hp
    exact ⟨p, exprLoopOk_exit _ (by rw [hp.1]; simp), by rw [hp.1]⟩
  | cons x chain ih =>
    obtain ⟨o, d⟩ := x
    have ho : o = 43 ∨ o = 45 := hops (o, d) (by simp)
    have hops2 : ∀ x ∈ chain, x.1 = 43 ∨ x.1 = 45 := fun x hx => hops x (by simp [hx])
    have hops4 : ∀ x ∈ chain, x.1 = 43 ∨ x.1 = 45 ∨ x.1 = 42 ∨ x.1 = 47 := fun x hx => by
      rcases hops2 x hx with h | h <;> simp [h]
    rw [chainText_cons, scan_operator o _ (by rcases ho with h | h <;> simp [h])] at hp
    have h1 := At_consumeToken hp
    rw [scan_literal d _ (hlit (o, d) (by simp)) (startsWithDigit_chainText chain hops4)] at h1
    have h2 := At_consumeToken h1
    simp only at hp h1 h2
    have hnext : ¬((consumeToken (consumeToken p)).currentToken.Typ = .TokenOperator ∧
        ((consumeToken (consumeToken p)).currentToken.Value = str "*" ∨
          (consumeToken (consumeToken p)).currentToken.Value = str "/")) := by
      rw [h2.1, scan_chainText chain hops4]
      cases chain with
      | nil => simp
      | cons y chain =>
        have := hops2 y (by simp)
        rcases this with h | h <;> simp [h, str_times, str_slash]
    obtain ⟨q, hq, hEOF⟩ := ih (fun x hx => hlit x (by simp [hx])) hops2
      (.BinOpNode acc (.NumberNode (Atoi d).1) [o]) (consumeToken (consumeToken p)) h2
    refine ⟨q, ?_, hEOF⟩
    exact exprLoopOk_step hp.1
      (by rcases ho with h | h <;> simp [h, str_plus, str_minus])
      (termOk_intro (factorOk_number h1.1) (termLoopOk_exit _ hnext)) hq

theorem termLoop_chain (chain : List (Nat × GoString))
    (hlit : ∀ x ∈ chain, IsLiteral x.2) (hops : ∀ x ∈ chain, x.1 = 42 ∨ x.1 = 47)
    (acc : Node) (p : Parser)
    (hp : p.At (scan (chainText chain)).1 (scan (chainText chain)).2) :
    ∃ q, TermLoopOk acc p (leftNest acc chain) q ∧ q.currentToken.Typ = .TokenEOF := by
  induction chain generalizing acc p with
  | nil =>
    rw [show chainText [] = [] from rfl, scan_nil] at hp
    exact ⟨p, termLoopOk_exit _ (by rw [hp.1]; simp), by rw [hp.1]⟩
  | cons x chain ih =>
    obtain ⟨o, d⟩ := x
    have ho : o = 42 ∨ o = 47 := hops (o, d) (by simp)
    have hops2 : ∀ x ∈ chain, x.1 = 42 ∨ x.1 = 47 := fun x hx => hops x (by simp [hx])
    have hops4 : ∀ x ∈ chain, x.1 = 43 ∨ x.1 = 45 ∨ x.1 = 42 ∨ x.1 = 47 := fun x hx => by
      rcases hops2 x hx with h | h <;> simp [h]
    rw [chainText_cons, scan_operator o _ (by rcases ho with h | h <;> simp [h])] at hp
    have h1 := At_consumeToken hp
    rw [scan_literal d _ (hlit (o, d) (by simp)) (startsWithDigit_chainText chain hops4)] at h1
    have h2 := At_consumeToken h1
    simp only at hp h1 h2
    obtain ⟨q, hq, hEOF⟩ := ih (fun x hx => hlit x (by simp [hx])) hops2
      (.BinOpNode acc (.NumberNode (Atoi d).1) [o]) (consumeToken (consumeToken p)) h2
    refine ⟨q, ?_, hEOF⟩
    exact termLoopOk_step hp.1
      (by rcases ho with h | h <;> simp [h, str_times, str_slash])
      (factorOk_number h1.1) hq

/-- C2: operators of equal precedence group left to right. For a literal
`n0` followed by a chain `o1 n1 ... ok nk` of literals whose operators are all
in "+-", or all in "*/", `parse` returns the left-nested tree with the
lookahead at end of input, and the line evaluates to the left fold of the
chain. -/
theorem C2_left_associative (n0 : GoString) (chain : List (Nat × GoString))
    (h0 : IsLiteral n0) (hlit : ∀ x ∈ chain, IsLiteral x.2)
    (hops : (∀ x ∈ chain, x.1 ∈ str "+-") ∨ (∀ x ∈ chain, x.1 ∈ str "*/")) :
    (∃ q, parse (n0 ++ chainText chain) = .ok (leftNest (.NumberNode (Atoi n0).1) chain, q) ∧
      q.currentToken.Typ = .TokenEOF) ∧
    evaluate_expression (n0 ++ chainText chain) =
      chain.foldl chainStep (.ok (Atoi n0).1) := by
  have hops4 : ∀ x ∈ chain, x.1 = 43 ∨ x.1 = 45 ∨ x.1 = 42 ∨ x.1 = 47 := fun x hx => by
    rcases hops with h | h
    · have := h x hx
      simp only [str_plus_minus, List.mem_cons, List.mem_singleton, List.not_mem_nil,
        or_false] at this
      rcases this with h | h <;> simp [h]
    · have := h x hx
      simp only [str_times_slash, List.mem_cons, List.mem_singleton, List.not_mem_nil,
        or_false] at this
      rcases this with h | h <;> simp [h]
  have hp0 := At_NewParser (n0 ++ chainText chain)
  rw [scan_literal n0 _ h0 (startsWithDigit_chainText chain hops4)] at hp0
  have hp1 := At_consumeToken hp0
  simp only at hp0 hp1
  have key : ∃ q, parse (n0 ++ chainText chain) =
      .ok (leftNest (.NumberNode (Atoi n0).1) chain, q) ∧ q.currentToken.Typ = .TokenEOF := by
    rcases hops with h | h
    · have hpm : ∀ x ∈ chain, x.1 = 43 ∨ x.1 = 45 := fun x hx => by
        simpa [str_plus_minus] using h x hx
      obtain ⟨q, hq, hEOF⟩ := exprLoop_chain chain hlit hpm (.NumberNode (Atoi n0).1) _ hp1
      have hnext : ¬((consumeToken (NewParser (NewLexer (n0 ++ chainText chain)))).currentToken.Typ
            = .TokenOperator ∧
          ((consumeToken (NewParser (NewLexer (n0 ++ chainText chain)))).currentToken.Value
              = str "*" ∨
            (consumeToken (NewParser (NewLexer (n0 ++ chainText chain)))).currentToken.Value
              = str "/")) := by
        rw [hp1.1, scan_chainText chain hops4]
        cases chain with
        | nil => simp
        | cons y chain =>
          have := hpm y (by simp)
          rcases this with h | h <;> simp [h, str_times, str_slash]
      exact ⟨q, parse_of_ExprOk (exprOk_intro
        (termOk_intro (factorOk_number hp0.1) (termLoopOk_exit _ hnext)) hq), hEOF⟩
    · have htd : ∀ x ∈ chain, x.1 = 42 ∨ x.1 = 47 := fun x hx => by
        simpa [str_times_slash] using h x hx
      obtain ⟨q, hq, hEOF⟩ := termLoop_chain chain hlit htd (.NumberNode (Atoi n0).1) _ hp1
      exact ⟨q, parse_of_ExprOk (exprOk_intro
        (termOk_intro (factorOk_number hp0.1) hq)
        (exprLoopOk_exit _ (by rw [hEOF]; simp))), hEOF⟩
  refine ⟨key, ?_⟩
  obtain ⟨q, hq, -⟩ := key
  rw [evaluate_of_parse hq, evaluate_leftNest]
  rfl

/-- C2 at "10-2-3": the tree is (10-2)-3 and the value 5, not 11; and at "100/5/2". -/
theorem C2_left_associative_witness :
    (IsLiteral (str "10") ∧ (∀ x ∈ [(45, str "2"), (45, str "3")], IsLiteral x.2) ∧
      ((∀ x ∈ [(45, str "2"), (45, str "3")], x.1 ∈ str "+-") ∨
        (∀ x ∈ [(45, str "2"), (45, str "3")], x.1 ∈ str "*/"))) ∧
    ((∃ q, parse (str "10" ++ chainText [(45, str "2"), (45, str "3")]) =
        .ok (leftNest (.NumberNode (Atoi (str "10")).1) [(45, str "2"), (45, str "3")], q) ∧
        q.currentToken.Typ = .TokenEOF) ∧
      evaluate_expression (str "10" ++ chainText [(45, str "2"), (45, str "3")]) =
        [(45, str "2"), (45, str "3")].foldl chainStep (.ok (Atoi (str "10")).1)) ∧
    str "10" ++ chainText [(45, str "2"), (45, str "3")] = str "10-2-3" ∧
    leftNest (.NumberNode (Atoi (str "10")).1) [(45, str "2"), (45, str "3")] =
      .BinOpNode (.BinOpNode (.NumberNode 10) (.NumberNode 2) (str "-")) (.NumberNode 3) (str "-") ∧
    evaluate_expression (str "10-2-3") = .ok 5 ∧
    evaluate_expression (str "100/5/2") = .ok 10 :=
  ⟨⟨by decide, by decide, Or.inl (by decide)⟩,
    C2_left_associative (str "10") [(45, str "2"), (45, str "3")] (by decide) (by decide)
      (Or.inl (by decide)),
    by decide, by decide, by decide, by decide⟩

/-! ## Trees built by the parser -/

theorem wellFormed_binOp {l r : Node} {op : GoString}
    (hop : op = str "+" ∨ op = str "-" ∨ op = str "*" ∨ op = str "/")
    (hl : l.WellFormed) (hr : r.WellFormed) : (Node.BinOpNode l r op).WellFormed :=
  ⟨hop, hl, hr⟩

theorem parse_wellFormed (n : Nat) :
    (∀ p node q, parseExpression n p = .ok (node, q) → node.WellFormed) ∧
    (∀ acc p node q, acc.WellFormed → parseExpressionLoop n acc p = .ok (node, q) →
      node.WellFormed) ∧
    (∀ p node q, parseTerm n p = .ok (node, q) → node.WellFormed) ∧
    (∀ acc p node q, acc.WellFormed → parseTermLoop n acc p = .ok (node, q) →
      node.WellFormed) ∧
    (∀ p node q, parseFactor n p = .ok (node, q) → node.WellFormed) := by
  induction n with
  | zero =>
    refine ⟨?_, ?_, ?_, ?_, ?_⟩ <;> intros <;> simp_all [parseExpression, parseExpressionLoop,
      parseTerm, parseTermLoop, parseFactor]
  | succ n ih =>
    obtain ⟨ihE, ihEL, ihT, ihTL, ihF⟩ := ih
    refine ⟨?_, ?_, ?_, ?_, ?_⟩
    · intro p node q h
      simp only [parseExpression] at h
      cases hT : parseTerm n p with
      | ok a =>
        obtain ⟨node1, p1⟩ := a
        rw [hT] at h
        exact ihEL _ _ _ _ (ihT _ _ _ hT) h
      | panic e => simp [hT] at h
      | outOfFuel => simp [hT] at h
    · intro acc p node q hacc h
      simp only [parseExpressionLoop] at h
      split at h
      · rename_i hc
        cases hT : parseTerm n (consumeToken p) with
        | ok a =>
          obtain ⟨node1, p1⟩ := a
          rw [hT] at h
          refine ihEL _ _ _ _ (wellFormed_binOp ?_ hacc (ihT _ _ _ hT)) h
          rcases hc.2 with h1 | h1 <;> simp [h1]
        | panic e => simp [hT] at h
        | outOfFuel => simp [hT] at h
      · simp only [Res.ok.injEq, Prod.mk.injEq] at h
        rw [← h.1]; exact hacc
    · intro p node q h
      simp only [parseTerm] at h
      cases hT : parseFactor n p with
      | ok a =>
        obtain ⟨node1, p1⟩ := a
        rw [hT] at h
        exact ihTL _ _ _ _ (ihF _ _ _ hT) h
      | panic e => simp [hT] at h
      | outOfFuel => simp [hT] at h
    · intro acc p node q hacc h
      simp only [parseTermLoop] at h
      split at h
      · rename_i hc
        cases hT : parseFactor n (consumeToken p) with
        | ok a =>
          obtain ⟨node1, p1⟩ := a
          rw [hT] at h
          refine ihTL _ _ _ _ (wellFormed_binOp ?_ hacc (ihF _ _ _ hT)) h
          rcases hc.2 with h1 | h1 <;> simp [h1]
        | panic e => simp [hT] at h
        | outOfFuel => simp [hT] at h
      · simp only [Res.ok.injEq, Prod.mk.injEq] at h
        rw [← h.1]; exact hacc
    · intro p node q h
      simp only [parseFactor] at h
      cases hty : p.currentToken.Typ <;> simp only [hty] at h
      · simp only [Res.ok.injEq, Prod.mk.injEq] at h
        rw [← h.1]; trivial
      · simp at h
      · cases hT : parseExpression n (consumeToken p) with
        | ok a =>
          obtain ⟨node1, p1⟩ := a
          rw [hT] at h
          simp only at h
          split at h
          · simp at h
          · simp only [Res.ok.injEq, Prod.mk.injEq] at h
            rw [← h.1]; exact ihE _ _ _ hT
        | panic e => simp [hT] at h
        | outOfFuel => simp [hT] at h
      · simp at h
      · simp at h
      · simp at h

theorem evaluate_wellFormed (node : Node) (h : node.WellFormed) :
    (∃ v, evaluate node = .ok v) ∨ evaluate node = .panic .divisionByZero := by
  induction node with
  | nil => exact absurd h (by simp [Node.WellFormed])
  | NumberNode v => exact Or.inl ⟨v, rfl⟩
  | BinOpNode l r op ihl ihr =>
    obtain ⟨hop, hl, hr⟩ := h
    rcases ihl hl with ⟨a, ha⟩ | ha
    · rcases ihr hr with ⟨b, hb⟩ | hb
      · rcases hop with h | h | h | h <;> subst h
        · left; exact ⟨wrap (a + b), by simp [evaluate, ha, hb]⟩
        · left; exact ⟨wrap (a - b), by simp [evaluate, ha, hb, str_plus, str_minus]⟩
        · left; exact ⟨wrap (a * b), by simp [evaluate, ha, hb, str_plus, str_minus, str_times]⟩
        · rw [evaluate_div l r a b ha hb]
          by_cases hz : b = 0
          · right; simp [hz]
          · left; exact ⟨wrap (Int.tdiv a b), by simp [hz]⟩
      · right; simp [evaluate, ha, hb]
    · right; simp [evaluate, ha]

/-! ## Trailing input (C6) -/

/-- C6 fails on the line "1+2)": parseExpression returns the tree 1+2 with the
right parenthesis as lookahead (not end of input), and the line evaluates to
the integer 3; likewise "1 2" evaluates to 1. -/
theorem C6_counterexample :
    parse (str "1+2)") =
      .ok (.BinOpNode (.NumberNode 1) (.NumberNode 2) (str "+"),
        ⟨⟨str "1+2)", 4, Token.zero⟩, ⟨.TokenRightParen, str ")"⟩⟩) ∧
    (⟨.TokenRightParen, str ")"⟩ : Token).Typ ≠ .TokenEOF ∧
    evaluate_expression (str "1+2)") = .ok 3 ∧
    evaluate_expression (str "1 2") = .ok 1 := by
  decide

/-- C6 as amended: tokens left over after a complete expression are not
rejected. When parseExpression returns a tree while the lookahead is not end
of input, the line evaluates that tree: the outcome is the integer value of
the tree, or the division-by-zero panic of the evaluator, and never a parse
error. -/
theorem C6_trailing_input_is_ignored (input : GoString) (node : Node) (q : Parser)
    (hp : parse input = .ok (node, q)) (_hla : q.currentToken.Typ ≠ .TokenEOF) :
    evaluate_expression input = evaluate node ∧
    ((∃ v, evaluate_expression input = .ok v) ∨
      evaluate_expression input = .panic .divisionByZero) := by
  have hwf := (parse_wellFormed _).1 _ _ _ hp
  rw [evaluate_of_parse hp]
  exact ⟨rfl, evaluate_wellFormed node hwf⟩

/-- C6 as amended, at the line "1+2)". -/
theorem C6_trailing_input_is_ignored_witness :
    (parse (str "1+2)") =
        .ok (.BinOpNode (.NumberNode 1) (.NumberNode 2) (str "+"),
          ⟨⟨str "1+2)", 4, Token.zero⟩, ⟨.TokenRightParen, str ")"⟩⟩) ∧
      (⟨⟨str "1+2)", 4, Token.zero⟩, ⟨.TokenRightParen, str ")"⟩⟩ : Parser).currentToken.Typ ≠
        .TokenEOF) ∧
    (evaluate_expression (str "1+2)") =
        evaluate (.BinOpNode (.NumberNode 1) (.NumberNode 2) (str "+")) ∧
      ((∃ v, evaluate_expression (str "1+2)") = .ok v) ∨
        evaluate_expression (str "1+2)") = .panic .divisionByZero)) :=
  ⟨⟨by decide, by decide⟩,
    C6_trailing_input_is_ignored (str "1+2)") _ _
      (show parse (str "1+2)") =
        .ok (.BinOpNode (.NumberNode 1) (.NumberNode 2) (str "+"),
          ⟨⟨str "1+2)", 4, Token.zero⟩, ⟨.TokenRightParen, str ")"⟩⟩) by decide)
      (by decide)⟩

/-! ## Unmatched left parenthesis (C7) -/

theorem scanInvariant_eq : ScanInvariant (fun s t => s = t) := by
  intro s t h
  subst h
  exact ⟨rfl, rfl⟩

theorem parseFactor_unmatched (n : Nat) (p : Parser) (node : Node) (q : Parser)
    (hp : p.currentToken.Typ = .TokenLeftParen)
    (he : parseExpression n (consumeToken p) = .ok (node, q))
    (hq : q.currentToken.Typ ≠ .TokenRightParen) :
    parseFactor (n + 1) p = .panic .expectedRightParen := by
  simp [parseFactor, hp, he, hq]

/-- C7: a left parenthesis without its right parenthesis is an error. Once
parseFactor has consumed a left parenthesis and parsed the inner expression,
a lookahead other than RightParen makes it panic with the message for the
missing parenthesis; and when a line `s` parses as a complete expression up
to end of input, the line "(" followed by `s` fails with that panic. -/
theorem C7_unmatched_left_paren :
    (∀ (n : Nat) (p : Parser) (node : Node) (q : Parser),
      p.currentToken.Typ = .TokenLeftParen →
      parseExpression n (consumeToken p) = .ok (node, q) →
      q.currentToken.Typ ≠ .TokenRightParen →
      parseFactor (n + 1) p = .panic .expectedRightParen) ∧
    (∀ (s : GoString) (node : Node) (q : Parser),
      parse s = .ok (node, q) → q.currentToken.Typ = .TokenEOF →
      parse (str "(" ++ s) = .panic .expectedRightParen ∧
      evaluate_expression (str "(" ++ s) = .panic .expectedRightParen) := by
  refine ⟨parseFactor_unmatched, ?_⟩
  intro s node q hs hq
  have h0 := At_NewParser (40 :: s)
  rw [scan_leftParen] at h0
  have h1 := At_consumeToken h0
  have h2 := At_NewParser s
  simp only at h0 h1
  have hrel : ParserRel (fun s t => s = t) (NewParser (NewLexer s))
      (consumeToken (NewParser (NewLexer (40 :: s)))) :=
    ⟨by rw [h1.1, h2.1], by rw [h1.2, h2.2]⟩
  have hsim := (simulation scanInvariant_eq (parseFuel s)).1 _ _ hrel
  unfold parse at hs
  rw [hs] at hsim
  cases hin : parseExpression (parseFuel s) (consumeToken (NewParser (NewLexer (40 :: s)))) with
  | ok a =>
    obtain ⟨node2, q2⟩ := a
    rw [hin] at hsim
    simp only [ResRel] at hsim
    have hq2 : q2.currentToken.Typ ≠ .TokenRightParen := by
      rw [← hsim.2.1, hq]; simp
    have hf := parseFactor_unmatched _ _ _ _ (by rw [h0.1]) hin hq2
    have he : parseExpression (parseFuel s + 1 + 1 + 1) (NewParser (NewLexer (40 :: s))) =
        .panic .expectedRightParen := by
      simp only [parseExpression, parseTerm, hf]
    have hp : parse (str "(" ++ s) = .panic .expectedRightParen := by
      rw [str_lparen]
      exact parse_eq_of_fuel he (by simp)
    exact ⟨hp, by simp [evaluate_expression, hp]⟩
  | panic e => rw [hin] at hsim; simp [ResRel] at hsim
  | outOfFuel => rw [hin] at hsim; simp [ResRel] at hsim

/-- C7 at the line "(1+2": the line "1+2" parses up to end of input, and
"(1+2" panics for the missing right parenthesis. -/
theorem C7_unmatched_left_paren_witness :
    (parse (str "1+2") =
        .ok (.BinOpNode (.NumberNode 1) (.NumberNode 2) (str "+"),
          ⟨⟨str "1+2", 3, Token.zero⟩, ⟨.TokenEOF, []⟩⟩) ∧
      (⟨⟨str "1+2", 3, Token.zero⟩, ⟨.TokenEOF, []⟩⟩ : Parser).currentToken.Typ = .TokenEOF) ∧
    (parse (str "(" ++ str "1+2") = .panic .expectedRightParen ∧
      evaluate_expression (str "(" ++ str "1+2") = .panic .expectedRightParen) ∧
    evaluate_expression (str "(1+2") = .panic .expectedRightParen :=
  ⟨⟨by decide, by decide⟩,
    C7_unmatched_left_paren.2 (str "1+2") _ _
      (show parse (str "1+2") =
        .ok (.BinOpNode (.NumberNode 1) (.NumberNode 2) (str "+"),
          ⟨⟨str "1+2", 3, Token.zero⟩, ⟨.TokenEOF, []⟩⟩) by decide)
      (by decide),
    by decide⟩

/-! ## Whitespace insensitivity (C9) -/

theorem WsInserted.toFalse {b : Bool} {s t : GoString} (h : WsInserted b s t) :
    WsInserted false s t := by
  induction h with
  | nil b => exact .nil _
  | keep b c s t h _ => exact .keep _ c s t h
  | insert b w s t hw _ _ ih => exact .insert _ w s t hw (by simp) ih

theorem isSpace_of_inserted {w : Nat} (hw : w = 32 ∨ w = 9) : isSpace w = true := by
  rcases hw with h | h <;> subst h <;> rfl

theorem isDigit_of_inserted {w : Nat} (hw : w = 32 ∨ w = 9) : isDigit w = false := by
  rcases hw with h | h <;> subst h <;> rfl

theorem takeWhile_of_not_startsWithDigit {s : GoString} (h : startsWithDigit s = false) :
    s.takeWhile isDigit = [] ∧ s.dropWhile isDigit = s := by
  cases s with
  | nil => simp
  | cons c s =>
    have : isDigit c = false := h
    simp [List.takeWhile_cons, List.dropWhile_cons, this]

theorem WsInserted.dropSpace {b : Bool} {s t : GoString} (h : WsInserted b s t)
    (hb : b = false) :
    WsInserted false (s.dropWhile isSpace) (t.dropWhile isSpace) := by
  induction h with
  | nil b => exact .nil _
  | keep b c s t h ih =>
    by_cases hc : isSpace c = true
    · have hd : isDigit c = false := by
        cases hdig : isDigit c with
        | false => rfl
        | true => rw [isSpace_of_isDigit hdig] at hc; exact absurd hc (by simp)
      simp only [List.dropWhile_cons, hc, if_true]
      exact ih hd
    · simp only [List.dropWhile_cons, hc, Bool.false_eq_true, if_false]
      exact .keep _ c s t h
  | insert b w s t hw _ _ ih =>
    simp only [List.dropWhile_cons, isSpace_of_inserted hw, if_true]
    exact ih hb

theorem WsInserted.digitRun {b : Bool} {s t : GoString} (h : WsInserted b s t)
    (hb : b = true) :
    s.takeWhile isDigit = t.takeWhile isDigit ∧
      WsInserted false (s.dropWhile isDigit) (t.dropWhile isDigit) := by
  induction h with
  | nil b => exact ⟨rfl, .nil _⟩
  | keep b c s t h ih =>
    by_cases hc : isDigit c = true
    · have := ih hc
      simp only [List.takeWhile_cons, List.dropWhile_cons, hc, if_true, this.1]
      exact ⟨trivial, this.2⟩
    · simp only [List.takeWhile_cons, List.dropWhile_cons, hc, Bool.false_eq_true, if_false]
      exact ⟨trivial, .keep _ c s t h⟩
  | insert b w s t hw hcond h _ =>
    have hs : startsWithDigit s = false := by
      cases hsd : startsWithDigit s with
      | false => rfl
      | true => exact absurd ⟨hb, hsd⟩ hcond
    have := takeWhile_of_not_startsWithDigit hs
    simp only [List.takeWhile_cons, List.dropWhile_cons, isDigit_of_inserted hw,
      Bool.false_eq_true, if_false, this.1, this.2]
    exact ⟨trivial, .insert _ w s t hw (by simp) h.toFalse⟩

theorem dropWhile_isSpace_head (s : GoString) (c : Nat) (t : GoString)
    (h : s.dropWhile isSpace = c :: t) : isSpace c = false := by
  induction s with
  | nil => simp at h
  | cons x s ih =>
    by_cases hx : isSpace x = true
    · simp only [List.dropWhile_cons, hx, if_true] at h
      exact ih h
    · simp only [List.dropWhile_cons, hx, Bool.false_eq_true, if_false, List.cons.injEq] at h
      rw [← h.1]
      simpa using hx

/-- Inserted blanks are invisible to the lexer: same token, and the
remainders again differ by inserted blanks only. -/
theorem scanInvariant_wsInserted : ScanInvariant (WsInserted false) := by
  intro s t h
  have hd := h.dropSpace rfl
  unfold scan
  generalize hs : s.dropWhile isSpace = s1 at hd
  generalize ht : t.dropWhile isSpace = t1 at hd
  cases hd with
  | nil => exact ⟨rfl, .nil _⟩
  | keep _ c s2 t2 hrest =>
    simp only
    by_cases hc : isDigit c = true
    · have hrun := hrest.digitRun hc
      simp only [hc, if_true, List.takeWhile_cons, List.dropWhile_cons, hrun.1]
      exact ⟨trivial, hrun.2⟩
    · have hc2 : isDigit c = false := by simpa using hc
      rw [hc2] at hrest
      simp only [hc, Bool.false_eq_true, if_false]
      by_cases ho : isOperatorChar c = true
      · simp only [ho, if_true]
        exact ⟨trivial, hrest⟩
      · simp only [ho, Bool.false_eq_true, if_false]
        by_cases h40 : c = 40
        · simp only [h40, if_true]
          exact ⟨trivial, hrest⟩
        · by_cases h41 : c = 41
          · simp only [h41, if_true]
            simp only [show ¬((41 : Nat) = 40) by decide, if_false]
            exact ⟨trivial, hrest⟩
          · simp only [h40, h41, if_false]
            exact ⟨trivial, .keep _ c s2 t2 (by rw [hc2]; exact hrest)⟩
  | insert _ w s2 t2 hw _ _ =>
    have := dropWhile_isSpace_head t w t2 ht
    rw [isSpace_of_inserted hw] at this
    exact absurd this (by simp)

theorem parse_rel {R : GoString → GoString → Prop} (hR : ScanInvariant R) {s t : GoString}
    (h : R s t) : ResRel R (parse s) (parse t) := by
  have hs := At_NewParser s
  have ht := At_NewParser t
  have hrel : ParserRel R (NewParser (NewLexer s)) (NewParser (NewLexer t)) :=
    ⟨by rw [hs.1, ht.1, (hR s t h).1], by rw [hs.2, ht.2]; exact (hR s t h).2⟩
  have hsim := (simulation hR (max (parseFuel s) (parseFuel t))).1 _ _ hrel
  have e1 : parseExpression (max (parseFuel s) (parseFuel t)) (NewParser (NewLexer s)) = parse s :=
    parseExpression_mono (parse_ne_outOfFuel s) (Nat.le_max_left _ _)
  have e2 : parseExpression (max (parseFuel s) (parseFuel t)) (NewParser (NewLexer t)) = parse t :=
    parseExpression_mono (parse_ne_outOfFuel t) (Nat.le_max_right _ _)
  rw [e1, e2] at hsim
  exact hsim

theorem evaluate_expression_rel {R : GoString → GoString → Prop} (hR : ScanInvariant R)
    {s t : GoString} (h : R s t) : evaluate_expression s = evaluate_expression t := by
  have hrel := parse_rel hR h
  unfold evaluate_expression
  cases hs : parse s <;> cases ht : parse t <;> rw [hs, ht] at hrel <;>
    simp only [ResRel] at hrel ⊢
  · rename_i a b
    obtain ⟨n1, p1⟩ := a
    obtain ⟨n2, p2⟩ := b
    simp only at hrel ⊢
    rw [hrel.1]
  · rw [hrel]

/-- C9: whitespace insensitivity. If `t` is the line `s` with any number of
spaces or tabs inserted at the start, at the end, or anywhere not between two
adjacent digits, then `t` evaluates to the same outcome as `s` (the same
integer, or the same error). -/
theorem C9_whitespace_insensitive (s t : GoString) (h : WsInserted false s t) :
    evaluate_expression t = evaluate_expression s :=
  (evaluate_expression_rel scanInvariant_wsInserted h).symm

theorem wsInserted_example : WsInserted false (str "1+2") (str "  1   +   2 ") := by
  rw [show str "1+2" = [49, 43, 50] by decide,
    show str "  1   +   2 " = [32, 32, 49, 32, 32, 32, 43, 32, 32, 32, 50, 32] by decide]
  repeat first
    | exact .nil _
    | apply WsInserted.keep
    | apply WsInserted.insert _ _ _ _ (by decide) (by decide)

/-- C9 at "1+2" and "  1   +   2 ": both evaluate to 3. -/
theorem C9_whitespace_insensitive_witness :
    WsInserted false (str "1+2") (str "  1   +   2 ") ∧
    evaluate_expression (str "  1   +   2 ") = evaluate_expression (str "1+2") ∧
    evaluate_expression (str "1+2") = .ok 3 ∧
    evaluate_expression (str "  1   +   2 ") = .ok 3 :=
  ⟨wsInserted_example,
    C9_whitespace_insensitive (str "1+2") (str "  1   +   2 ") wsInserted_example,
    by decide, by decide⟩

/-! ## The lexer, call by call (C11, C12, C17, C18) -/

theorem NextToken_of_rest_nil (l : Lexer) (h : (skipWhitespace l).rest = []) :
    NextToken l = (⟨.TokenEOF, []⟩, skipWhitespace l) := by
  unfold NextToken
  simp only
  have hr : (skipWhitespace l).input.drop (skipWhitespace l).position = [] := h
  rw [hr]

theorem NextToken_of_rest_cons (l : Lexer) (c : Nat) (t : GoString)
    (h : (skipWhitespace l).rest = c :: t) :
    NextToken l =
      if isDigit c then readNumber (skipWhitespace l)
      else if isOperatorChar c then readOperator (skipWhitespace l) c
      else if c = 40 then
        (⟨.TokenLeftParen, stringOfByte c⟩,
          { skipWhitespace l with position := (skipWhitespace l).position + 1 })
      else if c = 41 then
        (⟨.TokenRightParen, stringOfByte c⟩,
          { skipWhitespace l with position := (skipWhitespace l).position + 1 })
      else (⟨.TokenError, stringOfByte c⟩, skipWhitespace l) := by
  unfold NextToken
  simp only
  have hr : (skipWhitespace l).input.drop (skipWhitespace l).position = c :: t := h
  rw [hr]

theorem skipWhitespace_of_rest_nil (l : Lexer) (h : l.rest = []) : skipWhitespace l = l := by
  have hr : l.input.drop l.position = [] := h
  simp only [skipWhitespace, hr, skipWhitespaceLoop]

theorem rest_nil_iff (l : Lexer) : l.rest = [] ↔ l.input.length ≤ l.position := by
  unfold Lexer.rest
  exact List.drop_eq_nil_iff

theorem NextToken_eof_rest (l : Lexer) (h : (NextToken l).1.Typ = .TokenEOF) :
    (skipWhitespace l).rest = [] := by
  cases hr : (skipWhitespace l).rest with
  | nil => rfl
  | cons c t =>
    rw [NextToken_of_rest_cons l c t hr] at h
    split at h
    · simp [readNumber] at h
    · split at h
      · simp [readOperator] at h
      · split at h
        · simp at h
        · split at h <;> simp at h

theorem lexerAfter_fixed (l : Lexer) (tok : Token) (h : NextToken l = (tok, l)) (n : Nat) :
    lexerAfter n l = l := by
  induction n with
  | zero => rfl
  | succ n ih => simp only [lexerAfter, h, ih]

/-- C11 on the code: on the input "a" the default branch of NextToken returns
the Error token carrying "a" and leaves the cursor at 0, so the next call
scans the same character again; on "1 a" the second and third calls both
return Error "a" with the cursor at 2. (For a byte from 0x80 on, here the
first byte of a two-byte character, the token carries the two bytes that
`string(byte)` makes of it.) -/
theorem C11_error_token_does_not_advance :
    NextToken (NewLexer (str "a")) = (⟨.TokenError, str "a"⟩, NewLexer (str "a")) ∧
    (NextToken (NewLexer (str "a"))).2.position = 0 ∧
    NextToken (NextToken (NewLexer (str "a"))).2 = (⟨.TokenError, str "a"⟩, NewLexer (str "a")) ∧
    NextToken ⟨str "1 a", 1, Token.zero⟩ = (⟨.TokenError, str "a"⟩, ⟨str "1 a", 2, Token.zero⟩) ∧
    NextToken ⟨str "1 a", 2, Token.zero⟩ = (⟨.TokenError, str "a"⟩, ⟨str "1 a", 2, Token.zero⟩) ∧
    NextToken (NewLexer [195, 169]) = (⟨.TokenError, [195, 131]⟩, NewLexer [195, 169]) := by
  decide

/-- C12 on the code: on the input "1 a" the first call of NextToken returns
Number "1" and every later call returns Error "a"; no call ever returns
EndOfInput, in particular none of the first len + 1 = 4 calls. -/
theorem C12_token_sequence_never_ends :
    nthToken 0 (NewLexer (str "1 a")) = ⟨.TokenNumber, str "1"⟩ ∧
    (∀ n, nthToken (n + 1) (NewLexer (str "1 a")) = ⟨.TokenError, str "a"⟩) ∧
    (∀ n, (nthToken n (NewLexer (str "1 a"))).Typ ≠ .TokenEOF) := by
  have h2 : NextToken ⟨str "1 a", 2, Token.zero⟩ =
      (⟨.TokenError, str "a"⟩, ⟨str "1 a", 2, Token.zero⟩) := by decide
  have hk : ∀ n, nthToken (n + 1) (NewLexer (str "1 a")) = ⟨.TokenError, str "a"⟩ := by
    intro n
    cases n with
    | zero => decide
    | succ n =>
      have e : lexerAfter (n + 1 + 1) (NewLexer (str "1 a")) =
          lexerAfter n ⟨str "1 a", 2, Token.zero⟩ := by
        have e1 : (NextToken (NewLexer (str "1 a"))).2 = ⟨str "1 a", 1, Token.zero⟩ := by decide
        have e2 : (NextToken ⟨str "1 a", 1, Token.zero⟩).2 = ⟨str "1 a", 2, Token.zero⟩ := by
          decide
        simp only [lexerAfter, e1, e2]
      unfold nthToken
      rw [e, lexerAfter_fixed _ _ h2 n, h2]
  refine ⟨by decide, hk, ?_⟩
  intro n
  cases n with
  | zero => decide
  | succ n => rw [hk n]; decide

/-- C17: when the current character after skipping whitespace is a decimal
digit, NextToken returns a Number token whose text is the run of digits
starting there, unchanged, and moves the cursor just past the run; the run is
the longest one: what follows it does not start with a digit. -/
theorem C17_number_token_is_longest_digit_run (l : Lexer) (c : Nat) (t : GoString)
    (hrest : (skipWhitespace l).rest = c :: t) (hc : isDigit c = true) :
    ∃ run rest, (skipWhitespace l).rest = run ++ rest ∧ IsLiteral run ∧
      startsWithDigit rest = false ∧
      (NextToken l).1 = ⟨.TokenNumber, run⟩ ∧
      run = slice l.input (skipWhitespace l).position ((skipWhitespace l).position + run.length) ∧
      (NextToken l).2 =
        { skipWhitespace l with position := (skipWhitespace l).position + run.length } ∧
      (NextToken l).2.rest = rest := by
  have hN := NextToken_of_rest_cons l c t hrest
  rw [if_pos hc] at hN
  have hrn := readNumber_rest (skipWhitespace l)
  rw [← hN, hrest] at hrn
  refine ⟨(c :: t).takeWhile isDigit, (c :: t).dropWhile isDigit, ?_, ?_, ?_, hrn.1, ?_, ?_, hrn.2⟩
  · rw [hrest]; exact (List.takeWhile_append_dropWhile _ _).symm
  · refine ⟨by simp [List.takeWhile_cons, hc], ?_⟩
    intro d hd
    exact (List.mem_takeWhile_imp hd)
  · cases hdw : (c :: t).dropWhile isDigit with
    | nil => rfl
    | cons x xs =>
      have := List.head_dropWhile_not isDigit (c :: t) (by rw [hdw]; simp)
      simp only [hdw, List.head_cons] at this
      simpa [startsWithDigit] using this
  · have hs := slice_eq (skipWhitespace l).input (skipWhitespace l).position
      ((c :: t).takeWhile isDigit).length
    have hr : (skipWhitespace l).input.drop (skipWhitespace l).position = c :: t := hrest
    rw [hr, take_length_takeWhile] at hs
    exact hs.symm
  · rw [hN]
    have hr : (skipWhitespace l).input.drop (skipWhitespace l).position = c :: t := hrest
    simp only [readNumber, readNumberLoop_eq, hr]

/-- C17 at the lexer on " 0042+1": the token is Number "0042", the cursor moves to 5. -/
theorem C17_number_token_is_longest_digit_run_witness :
    ((skipWhitespace (NewLexer (str " 0042+1"))).rest = 48 :: str "042+1" ∧
      isDigit 48 = true) ∧
    (∃ run rest, (skipWhitespace (NewLexer (str " 0042+1"))).rest = run ++ rest ∧ IsLiteral run ∧
      startsWithDigit rest = false ∧
      (NextToken (NewLexer (str " 0042+1"))).1 = ⟨.TokenNumber, run⟩ ∧
      run = slice (NewLexer (str " 0042+1")).input
        (skipWhitespace (NewLexer (str " 0042+1"))).position
        ((skipWhitespace (NewLexer (str " 0042+1"))).position + run.length) ∧
      (NextToken (NewLexer (str " 0042+1"))).2 =
        { skipWhitespace (NewLexer (str " 0042+1")) with
          position := (skipWhitespace (NewLexer (str " 0042+1"))).position + run.length } ∧
      (NextToken (NewLexer (str " 0042+1"))).2.rest = rest) ∧
    NextToken (NewLexer (str " 0042+1")) =
      (⟨.TokenNumber, str "0042"⟩, ⟨str " 0042+1", 5, Token.zero⟩) :=
  ⟨⟨by decide, by decide⟩,
    C17_number_token_is_longest_digit_run (NewLexer (str " 0042+1")) 48 (str "042+1")
      (by decide) (by decide),
    by decide⟩

/-- C18: end of input is absorbing. With the cursor at or past the end of the
input, NextToken returns EndOfInput and leaves the lexer as it is; and once a
call has returned EndOfInput, every later call returns EndOfInput and leaves
the cursor where that call left it. -/
theorem C18_end_of_input_is_absorbing (l : Lexer) :
    (l.input.length ≤ l.position → NextToken l = (⟨.TokenEOF, []⟩, l)) ∧
    ((NextToken l).1.Typ = .TokenEOF →
      ∀ n, NextToken (lexerAfter (n + 1) l) = (⟨.TokenEOF, []⟩, (NextToken l).2)) := by
  have key : ∀ l : Lexer, l.rest = [] → NextToken l = (⟨.TokenEOF, []⟩, l) := by
    intro l h
    have hs := skipWhitespace_of_rest_nil l h
    have := NextToken_of_rest_nil l (by rw [hs]; exact h)
    rw [hs] at this
    exact this
  refine ⟨fun h => key l ((rest_nil_iff l).2 h), ?_⟩
  intro h n
  have hr := NextToken_eof_rest l h
  have h1 : NextToken l = (⟨.TokenEOF, []⟩, skipWhitespace l) := NextToken_of_rest_nil l hr
  have h2 := key (skipWhitespace l) hr
  simp only [lexerAfter, h1]
  rw [lexerAfter_fixed _ _ h2 n, h2]

/-- C18 at the lexer on "1 " after its first token: the cursor is at 1, the
next call skips the blank and returns EndOfInput with the cursor at 2, and so
does every call after it. -/
theorem C18_end_of_input_is_absorbing_witness :
    ((⟨str "1 ", 2, Token.zero⟩ : Lexer).input.length ≤ (⟨str "1 ", 2, Token.zero⟩ : Lexer).position ∧
      NextToken ⟨str "1 ", 2, Token.zero⟩ = (⟨.TokenEOF, []⟩, ⟨str "1 ", 2, Token.zero⟩)) ∧
    ((NextToken ⟨str "1 ", 1, Token.zero⟩).1.Typ = .TokenEOF ∧
      ∀ n, NextToken (lexerAfter (n + 1) ⟨str "1 ", 1, Token.zero⟩) =
        (⟨.TokenEOF, []⟩, (NextToken ⟨str "1 ", 1, Token.zero⟩).2)) ∧
    (NextToken ⟨str "1 ", 1, Token.zero⟩).2 = ⟨str "1 ", 2, Token.zero⟩ :=
  ⟨⟨by decide, (C18_end_of_input_is_absorbing ⟨str "1 ", 2, Token.zero⟩).1 (by decide)⟩,
    ⟨by decide, (C18_end_of_input_is_absorbing ⟨str "1 ", 1, Token.zero⟩).2 (by decide)⟩,
    by decide⟩

/-! ## Wrapping arithmetic (C16) -/

theorem wrap_spec (x : Int) :
    -(2 ^ 63) ≤ wrap x ∧ wrap x < 2 ^ 63 ∧ (2 ^ 64 : Int) ∣ (wrap x - x) := by
  unfold wrap
  omega

theorem evaluate_add (l r : Node) (a b : Int) (hl : evaluate l = .ok a) (hr : evaluate r = .ok b) :
    evaluate (.BinOpNode l r (str "+")) = .ok (wrap (a + b)) := by
  simp [evaluate, hl, hr]

theorem evaluate_sub (l r : Node) (a b : Int) (hl : evaluate l = .ok a) (hr : evaluate r = .ok b) :
    evaluate (.BinOpNode l r (str "-")) = .ok (wrap (a - b)) := by
  simp [evaluate, hl, hr, str_plus, str_minus]

theorem evaluate_mul (l r : Node) (a b : Int) (hl : evaluate l = .ok a) (hr : evaluate r = .ok b) :
    evaluate (.BinOpNode l r (str "*")) = .ok (wrap (a * b)) := by
  simp [evaluate, hl, hr, str_plus, str_minus, str_times]

/-- C16: arithmetic never fails on overflow, it wraps in the 64-bit
two-complement integer. For subtrees evaluating to `a` and `b`, the nodes
"+", "-" and "*" return the value in the signed 64-bit range that is congruent
modulo 2^64 to the exact sum, difference and product; and the quotient of the
minimum integer by -1 is the minimum integer, without an error. -/
theorem C16_arithmetic_wraps (l r : Node) (a b : Int)
    (hl : evaluate l = .ok a) (hr : evaluate r = .ok b) :
    (∃ v, evaluate (.BinOpNode l r (str "+")) = .ok v ∧
      -(2 ^ 63) ≤ v ∧ v < 2 ^ 63 ∧ (2 ^ 64 : Int) ∣ (v - (a + b))) ∧
    (∃ v, evaluate (.BinOpNode l r (str "-")) = .ok v ∧
      -(2 ^ 63) ≤ v ∧ v < 2 ^ 63 ∧ (2 ^ 64 : Int) ∣ (v - (a - b))) ∧
    (∃ v, evaluate (.BinOpNode l r (str "*")) = .ok v ∧
      -(2 ^ 63) ≤ v ∧ v < 2 ^ 63 ∧ (2 ^ 64 : Int) ∣ (v - (a * b))) ∧
    (a = -(2 ^ 63) → b = -1 → evaluate (.BinOpNode l r (str "/")) = .ok (-(2 ^ 63))) := by
  refine ⟨⟨_, evaluate_add l r a b hl hr, wrap_spec _⟩, ⟨_, evaluate_sub l r a b hl hr, wrap_spec _⟩,
    ⟨_, evaluate_mul l r a b hl hr, wrap_spec _⟩, ?_⟩
  intro ha hb
  subst ha hb
  rw [evaluate_div l r _ _ hl hr]
  decide

/-- C16 at 9223372036854775807 + 1: the sum wraps to -9223372036854775808. -/
theorem C16_arithmetic_wraps_witness :
    (evaluate (.NumberNode 9223372036854775807) = .ok 9223372036854775807 ∧
      evaluate (.NumberNode 1) = .ok 1) ∧
    (∃ v, evaluate (.BinOpNode (.NumberNode 9223372036854775807) (.NumberNode 1) (str "+")) =
        .ok v ∧
      -(2 ^ 63) ≤ v ∧ v < 2 ^ 63 ∧ (2 ^ 64 : Int) ∣ (v - (9223372036854775807 + 1))) ∧
    evaluate_expression (str "9223372036854775807+1") = .ok (-9223372036854775808) ∧
    evaluate_expression (str "(0-9223372036854775807-1)/(0-1)") = .ok (-9223372036854775808) :=
  ⟨⟨rfl, rfl⟩,
    (C16_arithmetic_wraps (.NumberNode 9223372036854775807) (.NumberNode 1)
      9223372036854775807 1 rfl rfl).1,
    by decide, by decide⟩

/-! ## Parsed trees are well formed (C20) -/

/-- C20: every tree returned by parseExpression is well formed for the
evaluator (each BinaryOp has an operator among + - * / and two subtrees that
are Literal or BinaryOp nodes). Hence evaluating it never reaches the
unknown-operator or unknown-node panic: it returns an integer, or fails with
division by zero. -/
theorem C20_parsed_trees_are_well_formed (n : Nat) (p : Parser) (node : Node) (q : Parser)
    (h : parseExpression n p = .ok (node, q)) :
    node.WellFormed ∧
    ((∃ v, evaluate node = .ok v) ∨ evaluate node = .panic .divisionByZero) ∧
    evaluate node ≠ .panic .unknownOperator ∧ evaluate node ≠ .panic .unknownNodeType := by
  have hwf := (parse_wellFormed n).1 p node q h
  have hev := evaluate_wellFormed node hwf
  refine ⟨hwf, hev, ?_, ?_⟩ <;>
    · rcases hev with ⟨v, hv⟩ | hv <;> rw [hv] <;> simp

/-- C20 at the line "6/(1-1)": the tree is well formed and its evaluation
fails with division by zero. -/
theorem C20_parsed_trees_are_well_formed_witness :
    parseExpression (parseFuel (str "6/(1-1)")) (NewParser (NewLexer (str "6/(1-1)"))) =
      .ok (.BinOpNode (.NumberNode 6)
          (.BinOpNode (.NumberNode 1) (.NumberNode 1) (str "-")) (str "/"),
        ⟨⟨str "6/(1-1)", 7, Token.zero⟩, ⟨.TokenEOF, []⟩⟩) ∧
    ((Node.BinOpNode (.NumberNode 6)
        (.BinOpNode (.NumberNode 1) (.NumberNode 1) (str "-")) (str "/")).WellFormed ∧
      ((∃ v, evaluate (.BinOpNode (.NumberNode 6)
          (.BinOpNode (.NumberNode 1) (.NumberNode 1) (str "-")) (str "/")) = .ok v) ∨
        evaluate (.BinOpNode (.NumberNode 6)
          (.BinOpNode (.NumberNode 1) (.NumberNode 1) (str "-")) (str "/")) =
            .panic .divisionByZero) ∧
      evaluate (.BinOpNode (.NumberNode 6)
        (.BinOpNode (.NumberNode 1) (.NumberNode 1) (str "-")) (str "/")) ≠
          .panic .unknownOperator ∧
      evaluate (.BinOpNode (.NumberNode 6)
        (.BinOpNode (.NumberNode 1) (.NumberNode 1) (str "-")) (str "/")) ≠
          .panic .unknownNodeType) ∧
    evaluate_expression (str "6/(1-1)") = .panic .divisionByZero :=
  ⟨by decide,
    C20_parsed_trees_are_well_formed (parseFuel (str "6/(1-1)"))
      (NewParser (NewLexer (str "6/(1-1)"))) _ _
      (show parseExpression (parseFuel (str "6/(1-1)")) (NewParser (NewLexer (str "6/(1-1)"))) =
        .ok (.BinOpNode (.NumberNode 6)
            (.BinOpNode (.NumberNode 1) (.NumberNode 1) (str "-")) (str "/"),
          ⟨⟨str "6/(1-1)", 7, Token.zero⟩, ⟨.TokenEOF, []⟩⟩) by decide),
    by decide⟩

/-! ## Termination and the number of tokens requested (C13) -/

/-- Every call requests at most as many tokens as the measure of its state,
and a successful call at most the amount by which it lowers the measure. -/
theorem calls_le_measure (n : Nat) :
    (∀ p, callsExpression n p ≤ p.measure ∧
      ∀ node q, parseExpression n p = .ok (node, q) → callsExpression n p + q.measure ≤ p.measure) ∧
    (∀ acc p, callsExpressionLoop n acc p ≤ p.measure ∧
      ∀ node q, parseExpressionLoop n acc p = .ok (node, q) →
        callsExpressionLoop n acc p + q.measure ≤ p.measure) ∧
    (∀ p, callsTerm n p ≤ p.measure ∧
      ∀ node q, parseTerm n p = .ok (node, q) → callsTerm n p + q.measure ≤ p.measure) ∧
    (∀ acc p, callsTermLoop n acc p ≤ p.measure ∧
      ∀ node q, parseTermLoop n acc p = .ok (node, q) →
        callsTermLoop n acc p + q.measure ≤ p.measure) ∧
    (∀ p, callsFactor n p ≤ p.measure ∧
      ∀ node q, parseFactor n p = .ok (node, q) → callsFactor n p + q.measure ≤ p.measure) := by
  induction n with
  | zero =>
    refine ⟨?_, ?_, ?_, ?_, ?_⟩ <;> intros <;>
      simp [parseExpression, parseExpressionLoop, parseTerm, parseTermLoop, parseFactor,
        callsExpression, callsExpressionLoop, callsTerm, callsTermLoop, callsFactor]
  | succ n ih =>
    obtain ⟨ihE, ihEL, ihT, ihTL, ihF⟩ := ih
    refine ⟨?_, ?_, ?_, ?_, ?_⟩
    · intro p
      simp only [parseExpression, callsExpression]
      have h1 := ihT p
      cases hT : parseTerm n p with
      | ok a =>
        obtain ⟨node1, p1⟩ := a
        have h2 := h1.2 _ _ hT
        have h3 := ihEL node1 p1
        simp only
        refine ⟨by omega, fun node q h => ?_⟩
        have := h3.2 _ _ h
        omega
      | panic e => simp; exact h1.1
      | outOfFuel => simp; exact h1.1
    · intro acc p
      simp only [parseExpressionLoop, callsExpressionLoop]
      split
      · rename_i hc
        have h0 := consumeToken_measure_lt p (by rw [hc.1]; rfl)
        have h1 := ihT (consumeToken p)
        cases hT : parseTerm n (consumeToken p) with
        | ok a =>
          obtain ⟨node1, p1⟩ := a
          have h2 := h1.2 _ _ hT
          have h3 := ihEL (.BinOpNode acc node1 p.currentToken.Value) p1
          simp only
          refine ⟨by omega, fun node q h => ?_⟩
          have := h3.2 _ _ h
          omega
        | panic e => simp; omega
        | outOfFuel => simp; omega
      · refine ⟨by omega, fun node q h => ?_⟩
        simp only [Res.ok.injEq, Prod.mk.injEq] at h
        rw [h.2]; omega
    · intro p
      simp only [parseTerm, callsTerm]
      have h1 := ihF p
      cases hT : parseFactor n p with
      | ok a =>
        obtain ⟨node1, p1⟩ := a
        have h2 := h1.2 _ _ hT
        have h3 := ihTL node1 p1
        simp only
        refine ⟨by omega, fun node q h => ?_⟩
        have := h3.2 _ _ h
        omega
      | panic e => simp; exact h1.1
      | outOfFuel => simp; exact h1.1
    · intro acc p
      simp only [parseTermLoop, callsTermLoop]
      split
      · rename_i hc
        have h0 := consumeToken_measure_lt p (by rw [hc.1]; rfl)
        have h1 := ihF (consumeToken p)
        cases hT : parseFactor n (consumeToken p) with
        | ok a =>
          obtain ⟨node1, p1⟩ := a
          have h2 := h1.2 _ _ hT
          have h3 := ihTL (.BinOpNode acc node1 p.currentToken.Value) p1
          simp only
          refine ⟨by omega, fun node q h => ?_⟩
          have := h3.2 _ _ h
          omega
        | panic e => simp; omega
        | outOfFuel => simp; omega
      · refine ⟨by omega, fun node q h => ?_⟩
        simp only [Res.ok.injEq, Prod.mk.injEq] at h
        rw [h.2]; omega
    · intro p
      simp only [parseFactor, callsFactor]
      cases hty : p.currentToken.Typ <;> simp only []
      · have h0 := consumeToken_measure_lt p (by rw [hty]; rfl)
        refine ⟨by omega, fun node q h => ?_⟩
        simp only [Res.ok.injEq, Prod.mk.injEq] at h
        rw [← h.2]; omega
      · simp
      · have h0 := consumeToken_measure_lt p (by rw [hty]; rfl)
        have h1 := ihE (consumeToken p)
        cases hT : parseExpression n (consumeToken p) with
        | ok a =>
          obtain ⟨node1, p1⟩ := a
          have h2 := h1.2 _ _ hT
          simp only
          by_cases hc : p1.currentToken.Typ = .TokenRightParen
          · have h3 := consumeToken_measure_lt p1 (by rw [hc]; rfl)
            simp only [hc, ne_eq, not_true_eq_false, if_false]
            refine ⟨by omega, fun node q h => ?_⟩
            simp only [Res.ok.injEq, Prod.mk.injEq] at h
            rw [← h.2]; omega
          · simp only [hc, ne_eq, not_false_eq_true, if_true]
            refine ⟨by omega, fun node q h => ?_⟩
            simp at h
        | panic e => simp; omega
        | outOfFuel => simp; omega
      · simp
      · simp
      · simp

theorem evaluate_ne_outOfFuel (node : Node) : evaluate node ≠ .outOfFuel := by
  induction node with
  | nil => simp [evaluate]
  | NumberNode v => simp [evaluate]
  | BinOpNode l r op ihl ihr =>
    simp only [evaluate]
    cases hl : evaluate l with
    | ok a =>
      cases hr : evaluate r with
      | ok b =>
        simp only
        repeat' split
        all_goals simp
      | panic e => simp
      | outOfFuel => exact absurd hr ihr
    | panic e => simp
    | outOfFuel => exact absurd hl ihl

theorem evaluate_expression_ne_outOfFuel (input : GoString) :
    evaluate_expression input ≠ .outOfFuel := by
  unfold evaluate_expression
  cases h : parse input with
  | ok a => obtain ⟨ast, q⟩ := a; exact evaluate_ne_outOfFuel ast
  | panic e => simp
  | outOfFuel => exact absurd h (parse_ne_outOfFuel input)

/-- C13: evaluating one line always terminates. For every input the pipeline
ends with an integer or a panic (the fuel of the model never runs out); the
parser requests at most len(input) + 1 tokens from the lexer; and the mutual
recursion is well founded on the input that remains: every successful
parseExpression, parseTerm and parseFactor strictly lowers the measure of the
parser state, and fuel linear in that measure is always enough. -/
theorem C13_evaluation_terminates (input : GoString) :
    ((∃ v, evaluate_expression input = .ok v) ∨ (∃ e, evaluate_expression input = .panic e)) ∧
    tokensRequested input ≤ input.length + 1 ∧
    (∀ n p node q, parseExpression n p = .ok (node, q) → q.measure < p.measure) ∧
    (∀ n p node q, parseTerm n p = .ok (node, q) → q.measure < p.measure) ∧
    (∀ n p node q, parseFactor n p = .ok (node, q) → q.measure < p.measure) ∧
    (∀ n p, 4 * p.measure + 3 ≤ n → parseExpression n p ≠ .outOfFuel) ∧
    (NewParser (NewLexer input)).measure ≤ input.length := by
  refine ⟨?_, ?_, fun n => (measure_decrease n).1, fun n => (measure_decrease n).2.2.1,
    fun n => (measure_decrease n).2.2.2.2, fun n => (fuel_enough n).1, NewParser_measure input⟩
  · have h := evaluate_expression_ne_outOfFuel input
    cases he : evaluate_expression input with
    | ok v => exact Or.inl ⟨v, rfl⟩
    | panic e => exact Or.inr ⟨e, rfl⟩
    | outOfFuel => exact absurd he h
  · have h1 := ((calls_le_measure (parseFuel input)).1 (NewParser (NewLexer input))).1
    have h2 := NewParser_measure input
    unfold tokensRequested
    omega

/-! ## Text after a complete expression (C14, C15) -/

theorem takeWhile_dropWhile_append_stop (f : Nat → Bool) (a b : GoString) (x : Nat)
    (hx : f x = false) :
    (a ++ x :: b).takeWhile f = a.takeWhile f ∧
      (a ++ x :: b).dropWhile f = a.dropWhile f ++ x :: b := by
  induction a with
  | nil => simp [List.takeWhile_cons, List.dropWhile_cons, hx]
  | cons c a ih =>
    by_cases hc : f c = true
    · simp [List.takeWhile_cons, List.dropWhile_cons, hc, ih.1, ih.2]
    · simp [List.takeWhile_cons, List.dropWhile_cons, hc]

theorem scan_append_rightParen (s t : GoString) :
    ((scan (s ++ 41 :: t)).1 = (scan s).1 ∧ (scan s).1.Typ ≠ .TokenEOF ∧
      (scan (s ++ 41 :: t)).2 = (scan s).2 ++ 41 :: t) ∨
    ((scan s).1.Typ = .TokenEOF ∧ scan (s ++ 41 :: t) = (⟨.TokenRightParen, [41]⟩, t)) := by
  have hsp := (takeWhile_dropWhile_append_stop isSpace s t 41 (by decide)).2
  unfold scan
  rw [hsp]
  cases hs : s.dropWhile isSpace with
  | nil =>
    right
    simp only [List.nil_append]
    refine ⟨trivial, ?_⟩
    rw [if_neg (by decide), if_neg (by decide), if_neg (by decide), if_pos trivial]
    rfl
  | cons c s1 =>
    left
    simp only [List.cons_append]
    by_cases hd : isDigit c = true
    · have hdg := takeWhile_dropWhile_append_stop isDigit (c :: s1) t 41 (by decide)
      simp only [List.cons_append] at hdg
      simp only [hd, if_true, hdg.1, hdg.2]
      simp
    · simp only [hd, Bool.false_eq_true, if_false]
      by_cases ho : isOperatorChar c = true
      · simp [ho]
      · simp only [ho, Bool.false_eq_true, if_false]
        by_cases h40 : c = 40
        · simp [h40]
        · by_cases h41 : c = 41
          · subst h41; simp
          · simp [h40, h41]

theorem prefixRel_of_At (t : GoString) {p p2 : Parser} {s : GoString}
    (hp : p.At (scan s).1 (scan s).2)
    (hp2 : p2.At (scan (s ++ 41 :: t)).1 (scan (s ++ 41 :: t)).2) : PrefixRel t p p2 := by
  rcases scan_append_rightParen s t with ⟨h1, h2, h3⟩ | ⟨h1, h2⟩
  · left
    exact ⟨by rw [hp.1, hp2.1, h1], by rw [hp.1]; exact h2, by rw [hp2.2, hp.2, h3]⟩
  · right
    exact ⟨by rw [hp.1]; exact h1, by rw [hp2.1, h2], by rw [hp2.2, h2]⟩

theorem prefixRel_consumeToken (t : GoString) {p p2 : Parser}
    (h : p2.rest = p.rest ++ 41 :: t) : PrefixRel t (consumeToken p) (consumeToken p2) := by
  have hp := consumeToken_scan p
  have hp2 := consumeToken_scan p2
  rw [h] at hp2
  exact prefixRel_of_At t hp hp2

/-- What the parser builds from a line it also builds from that line followed
by a right parenthesis and any text. -/
theorem prefix_simulation (t : GoString) (n : Nat) :
    (∀ p p2 node q, PrefixRel t p p2 → parseExpression n p = .ok (node, q) →
      ∃ q2, parseExpression n p2 = .ok (node, q2) ∧ PrefixRel t q q2) ∧
    (∀ acc p p2 node q, PrefixRel t p p2 → parseExpressionLoop n acc p = .ok (node, q) →
      ∃ q2, parseExpressionLoop n acc p2 = .ok (node, q2) ∧ PrefixRel t q q2) ∧
    (∀ p p2 node q, PrefixRel t p p2 → parseTerm n p = .ok (node, q) →
      ∃ q2, parseTerm n p2 = .ok (node, q2) ∧ PrefixRel t q q2) ∧
    (∀ acc p p2 node q, PrefixRel t p p2 → parseTermLoop n acc p = .ok (node, q) →
      ∃ q2, parseTermLoop n acc p2 = .ok (node, q2) ∧ PrefixRel t q q2) ∧
    (∀ p p2 node q, PrefixRel t p p2 → parseFactor n p = .ok (node, q) →
      ∃ q2, parseFactor n p2 = .ok (node, q2) ∧ PrefixRel t q q2) := by
  induction n with
  | zero =>
    refine ⟨?_, ?_, ?_, ?_, ?_⟩ <;> intros <;> simp_all [parseExpression, parseExpressionLoop,
      parseTerm, parseTermLoop, parseFactor]
  | succ n ih =>
    obtain ⟨ihE, ihEL, ihT, ihTL, ihF⟩ := ih
    refine ⟨?_, ?_, ?_, ?_, ?_⟩
    · intro p p2 node q hrel h
      simp only [parseExpression] at h ⊢
      cases hT : parseTerm n p with
      | ok a =>
        obtain ⟨node1, p1⟩ := a
        rw [hT] at h
        obtain ⟨q1, hq1, hr1⟩ := ihT _ _ _ _ hrel hT
        rw [hq1]
        exact ihEL _ _ _ _ _ hr1 h
      | panic e => simp [hT] at h
      | outOfFuel => simp [hT] at h
    · intro acc p p2 node q hrel h
      simp only [parseExpressionLoop] at h ⊢
      rcases hrel with ⟨h1, h2, h3⟩ | ⟨h1, h2, h3⟩
      · rw [← h1]
        split at h
        · rename_i hc
          rw [if_pos hc]
          cases hT : parseTerm n (consumeToken p) with
          | ok a =>
            obtain ⟨node1, p1⟩ := a
            rw [hT] at h
            obtain ⟨q1, hq1, hr1⟩ := ihT _ _ _ _ (prefixRel_consumeToken t h3) hT
            rw [hq1]
            exact ihEL _ _ _ _ _ hr1 h
          | panic e => simp [hT] at h
          | outOfFuel => simp [hT] at h
        · rename_i hc
          rw [if_neg hc]
          simp only [Res.ok.injEq, Prod.mk.injEq] at h
          exact ⟨p2, by rw [h.1], by rw [← h.2]; exact Or.inl ⟨h1, h2, h3⟩⟩
      · have hc : ¬(p.currentToken.Typ = .TokenOperator ∧
            (p.currentToken.Value = str "+" ∨ p.currentToken.Value = str "-")) := by
          rw [h1]; simp
        have hc2 : ¬(p2.currentToken.Typ = .TokenOperator ∧
            (p2.currentToken.Value = str "+" ∨ p2.currentToken.Value = str "-")) := by
          rw [h2]; simp
        rw [if_neg hc] at h
        rw [if_neg hc2]
        simp only [Res.ok.injEq, Prod.mk.injEq] at h
        exact ⟨p2, by rw [h.1], by rw [← h.2]; exact Or.inr ⟨h1, h2, h3⟩⟩
    · intro p p2 node q hrel h
      simp only [parseTerm] at h ⊢
      cases hT : parseFactor n p with
      | ok a =>
        obtain ⟨node1, p1⟩ := a
        rw [hT] at h
        obtain ⟨q1, hq1, hr1⟩ := ihF _ _ _ _ hrel hT
        rw [hq1]
        exact ihTL _ _ _ _ _ hr1 h
      | panic e => simp [hT] at h
      | outOfFuel => simp [hT] at h
    · intro acc p p2 node q hrel h
      simp only [parseTermLoop] at h ⊢
      rcases hrel with ⟨h1, h2, h3⟩ | ⟨h1, h2, h3⟩
      · rw [← h1]
        split at h
        · rename_i hc
          rw [if_pos hc]
          cases hT : parseFactor n (consumeToken p) with
          | ok a =>
            obtain ⟨node1, p1⟩ := a
            rw [hT] at h
            obtain ⟨q1, hq1, hr1⟩ := ihF _ _ _ _ (prefixRel_consumeToken t h3) hT
            rw [hq1]
            exact ihTL _ _ _ _ _ hr1 h
          | panic e => simp [hT] at h
          | outOfFuel => simp [hT] at h
        · rename_i hc
          rw [if_neg hc]
          simp only [Res.ok.injEq, Prod.mk.injEq] at h
          exact ⟨p2, by rw [h.1], by rw [← h.2]; exact Or.inl ⟨h1, h2, h3⟩⟩
      · have hc : ¬(p.currentToken.Typ = .TokenOperator ∧
            (p.currentToken.Value = str "*" ∨ p.currentToken.Value = str "/")) := by
          rw [h1]; simp
        have hc2 : ¬(p2.currentToken.Typ = .TokenOperator ∧
            (p2.currentToken.Value = str "*" ∨ p2.currentToken.Value = str "/")) := by
          rw [h2]; simp
        rw [if_neg hc] at h
        rw [if_neg hc2]
        simp only [Res.ok.injEq, Prod.mk.injEq] at h
        exact ⟨p2, by rw [h.1], by rw [← h.2]; exact Or.inr ⟨h1, h2, h3⟩⟩
    · intro p p2 node q hrel h
      rcases hrel with ⟨h1, h2, h3⟩ | ⟨h1, h2, h3⟩
      · simp only [parseFactor, ← h1] at h ⊢
        cases hty : p.currentToken.Typ <;> simp only [hty] at h ⊢
        · simp only [Res.ok.injEq, Prod.mk.injEq] at h
          exact ⟨consumeToken p2, by rw [h.1], by rw [← h.2]; exact prefixRel_consumeToken t h3⟩
        · simp at h
        · cases hT : parseExpression n (consumeToken p) with
          | ok a =>
            obtain ⟨node1, p1⟩ := a
            rw [hT] at h
            obtain ⟨q1, hq1, hr1⟩ := ihE _ _ _ _ (prefixRel_consumeToken t h3) hT
            rw [hq1]
            simp only at h ⊢
            by_cases hc : p1.currentToken.Typ = .TokenRightParen
            · simp only [hc, ne_eq, not_true_eq_false, if_false, Res.ok.injEq,
                Prod.mk.injEq] at h
              rcases hr1 with ⟨g1, g2, g3⟩ | ⟨g1, g2, g3⟩
              · have hc2 : q1.currentToken.Typ = .TokenRightParen := by rw [← g1]; exact hc
                simp only [hc2, ne_eq, not_true_eq_false, if_false]
                exact ⟨consumeToken q1, by rw [h.1],
                  by rw [← h.2]; exact prefixRel_consumeToken t g3⟩
              · rw [hc] at g1; exact absurd g1 (by simp)
            · simp [hc] at h
          | panic e => simp [hT] at h
          | outOfFuel => simp [hT] at h
        · simp at h
        · simp at h
        · simp at h
      · simp only [parseFactor, h1] at h
        simp at h
theorem parse_prefix (s t : GoString) (node : Node) (q : Parser)
    (h : parse s = .ok (node, q)) :
    ∃ q2, parse (s ++ 41 :: t) = .ok (node, q2) ∧ PrefixRel t q q2 := by
  have hrel : PrefixRel t (NewParser (NewLexer s)) (NewParser (NewLexer (s ++ 41 :: t))) :=
    prefixRel_of_At t (At_NewParser s) (At_NewParser (s ++ 41 :: t))
  obtain ⟨q2, hq2, hr2⟩ := (prefix_simulation t (parseFuel s)).1 _ _ _ _ hrel h
  exact ⟨q2, parse_eq_of_fuel hq2 (by simp), hr2⟩

/-- C14: the parser as written evaluates a prefix and discards the rest. For
every line `s` on which parseExpression succeeds and every text `t`, the line
`s` followed by a right parenthesis and `t` parses to the same tree, so its
evaluation has the same outcome (the same integer or the same evaluation
error) as that of `s`. -/
theorem C14_text_after_right_paren_is_discarded (s t : GoString) (node : Node) (q : Parser)
    (h : parse s = .ok (node, q)) :
    (∃ q2, parse (s ++ str ")" ++ t) = .ok (node, q2)) ∧
    evaluate_expression (s ++ str ")" ++ t) = evaluate_expression s := by
  obtain ⟨q2, hq2, -⟩ := parse_prefix s t node q h
  have htxt : s ++ str ")" ++ t = s ++ 41 :: t := by simp [str_rparen]
  rw [htxt]
  exact ⟨⟨q2, hq2⟩, by rw [evaluate_of_parse hq2, evaluate_of_parse h]⟩

/-- C14 at "1+2" followed by ")" and "*5": the line "1+2)*5" evaluates to 3,
like "1+2" and "1+2)"; and "1 2" evaluates to 1. -/
theorem C14_text_after_right_paren_is_discarded_witness :
    parse (str "1+2") =
      .ok (.BinOpNode (.NumberNode 1) (.NumberNode 2) (str "+"),
        ⟨⟨str "1+2", 3, Token.zero⟩, ⟨.TokenEOF, []⟩⟩) ∧
    ((∃ q2, parse (str "1+2" ++ str ")" ++ str "*5") =
        .ok (.BinOpNode (.NumberNode 1) (.NumberNode 2) (str "+"), q2)) ∧
      evaluate_expression (str "1+2" ++ str ")" ++ str "*5") = evaluate_expression (str "1+2")) ∧
    evaluate_expression (str "1+2)*5") = .ok 3 ∧
    evaluate_expression (str "1+2)") = .ok 3 ∧
    evaluate_expression (str "1 2") = .ok 1 :=
  ⟨by decide,
    C14_text_after_right_paren_is_discarded (str "1+2") (str "*5") _ _
      (show parse (str "1+2") =
        .ok (.BinOpNode (.NumberNode 1) (.NumberNode 2) (str "+"),
          ⟨⟨str "1+2", 3, Token.zero⟩, ⟨.TokenEOF, []⟩⟩) by decide),
    by decide, by decide, by decide⟩

/-- C15: parentheses add no tree node. When a line `s` parses to a tree with
the lookahead at end of input, the line "(" `s` ")" parses to exactly the same
tree, again with the lookahead at end of input. -/
theorem C15_parentheses_add_no_node (s : GoString) (node : Node) (q : Parser)
    (h : parse s = .ok (node, q)) (hq : q.currentToken.Typ = .TokenEOF) :
    ∃ q2, parse (str "(" ++ s ++ str ")") = .ok (node, q2) ∧
      q2.currentToken.Typ = .TokenEOF := by
  have htxt : str "(" ++ s ++ str ")" = 40 :: (s ++ 41 :: []) := by
    simp [str_lparen, str_rparen]
  rw [htxt]
  have h0 := At_NewParser (40 :: (s ++ 41 :: []))
  rw [scan_leftParen] at h0
  have h1 := At_consumeToken h0
  simp only at h0 h1
  have hrel : PrefixRel [] (NewParser (NewLexer s))
      (consumeToken (NewParser (NewLexer (40 :: (s ++ 41 :: []))))) :=
    prefixRel_of_At [] (At_NewParser s) h1
  obtain ⟨q1, hq1, hr1⟩ := (prefix_simulation [] (parseFuel s)).1 _ _ _ _ hrel h
  rcases hr1 with ⟨g1, g2, g3⟩ | ⟨g1, g2, g3⟩
  · exact absurd hq g2
  · have h2 : (consumeToken q1).At (scan []).1 (scan []).2 :=
      At_consumeToken (show q1.At _ [] from ⟨g2, g3⟩)
    rw [scan_nil] at h2
    have e : ExprOk (NewParser (NewLexer (40 :: (s ++ 41 :: [])))) node (consumeToken q1) :=
      exprOk_intro
        (termOk_intro (factorOk_paren (by rw [h0.1]) ⟨_, hq1⟩ (by rw [g2]))
          (termLoopOk_exit _ (by rw [h2.1]; simp)))
        (exprLoopOk_exit _ (by rw [h2.1]; simp))
    exact ⟨_, parse_of_ExprOk e, by rw [h2.1]⟩

/-- C15 at the line "1+2*3": "(1+2*3)" parses to the same tree 1+(2*3). -/
theorem C15_parentheses_add_no_node_witness :
    (parse (str "1+2*3") =
        .ok (.BinOpNode (.NumberNode 1)
            (.BinOpNode (.NumberNode 2) (.NumberNode 3) (str "*")) (str "+"),
          ⟨⟨str "1+2*3", 5, Token.zero⟩, ⟨.TokenEOF, []⟩⟩) ∧
      (⟨⟨str "1+2*3", 5, Token.zero⟩, ⟨.TokenEOF, []⟩⟩ : Parser).currentToken.Typ = .TokenEOF) ∧
    (∃ q2, parse (str "(" ++ str "1+2*3" ++ str ")") =
        .ok (.BinOpNode (.NumberNode 1)
          (.BinOpNode (.NumberNode 2) (.NumberNode 3) (str "*")) (str "+"), q2) ∧
      q2.currentToken.Typ = .TokenEOF) ∧
    parse (str "(1+2*3)") =
      .ok (.BinOpNode (.NumberNode 1)
          (.BinOpNode (.NumberNode 2) (.NumberNode 3) (str "*")) (str "+"),
        ⟨⟨str "(1+2*3)", 7, Token.zero⟩, ⟨.TokenEOF, []⟩⟩) :=
  ⟨⟨by decide, by decide⟩,
    C15_parentheses_add_no_node (str "1+2*3") _ _
      (show parse (str "1+2*3") =
        .ok (.BinOpNode (.NumberNode 1)
            (.BinOpNode (.NumberNode 2) (.NumberNode 3) (str "*")) (str "+"),
          ⟨⟨str "1+2*3", 5, Token.zero⟩, ⟨.TokenEOF, []⟩⟩) by decide)
      (by decide),
    by decide⟩

/-! ## Printing, then parsing (C19) -/

theorem digitsValue_append_singleton (xs : GoString) (d : Nat) :
    digitsValue (xs ++ [d]) = 10 * digitsValue xs + (d - 48) := by
  simp [digitsValue, List.foldl_append]

theorem isLiteral_append_singleton (xs : GoString) (d : Nat) (hd : isDigit d = true)
    (hxs : ∀ c ∈ xs, isDigit c = true) : IsLiteral (xs ++ [d]) := by
  refine ⟨by simp, ?_⟩
  intro c hc
  rcases List.mem_append.1 hc with h | h
  · exact hxs c h
  · simp only [List.mem_singleton] at h; rw [h]; exact hd

theorem isDigit_of_lt_ten (n : Nat) (h : n < 10) : isDigit (48 + n) = true := by
  simp only [isDigit, Bool.and_eq_true, decide_eq_true_eq]; omega

theorem decimalLoop_spec (fuel : Nat) :
    ∀ n acc, n < fuel → ∃ ds, decimalLoop fuel n acc = ds ++ acc ∧ IsLiteral ds ∧
      digitsValue ds = n := by
  induction fuel with
  | zero => intro n acc h; omega
  | succ fuel ih =>
    intro n acc h
    by_cases h10 : n < 10
    · refine ⟨[48 + n], by simp [decimalLoop, h10], ?_, by simp [digitsValue]⟩
      exact isLiteral_append_singleton [] _ (isDigit_of_lt_ten n h10) (by simp)
    · obtain ⟨ds, h1, h2, h3⟩ := ih (n / 10) ((48 + n % 10) :: acc) (by omega)
      refine ⟨ds ++ [48 + n % 10], by simp [decimalLoop, h10, h1], ?_, ?_⟩
      · exact isLiteral_append_singleton ds _ (isDigit_of_lt_ten _ (by omega)) h2.2
      · rw [digitsValue_append_singleton, h3]; omega

theorem decimal_spec (n : Nat) : IsLiteral (decimal n) ∧ digitsValue (decimal n) = n := by
  obtain ⟨ds, h1, h2, h3⟩ := decimalLoop_spec (n + 1) n [] (by omega)
  unfold decimal
  rw [h1, List.append_nil]
  exact ⟨h2, h3⟩

theorem Atoi_decimal (v : Int) (h0 : 0 ≤ v) (h1 : v < 2 ^ 63) :
    (Atoi (decimal v.toNat)).1 = v := by
  have hs := decimal_spec v.toNat
  rw [Atoi_fits _ hs.1 (by rw [hs.2]; omega), hs.2]
  omega

theorem printable_binOp {l r : Node} {op : GoString} (h : (Node.BinOpNode l r op).Printable) :
    (op = str "+" ∨ op = str "-" ∨ op = str "*" ∨ op = str "/") ∧ l.Printable ∧ r.Printable :=
  h

/-- A printed tree, in front of text that does not start with a digit, is
read back by parseFactor as that tree. -/
theorem factor_render (t : Node) (ht : t.Printable) :
    ∀ (rest : GoString) (p : Parser), startsWithDigit rest = false →
      p.At (scan (render t ++ rest)).1 (scan (render t ++ rest)).2 →
      ∃ q, FactorOk p t q ∧ q.At (scan rest).1 (scan rest).2 := by
  induction t with
  | nil => exact absurd ht (by simp [Node.Printable])
  | NumberNode v =>
    intro rest p hrest hp
    have hv : 0 ≤ v ∧ v < 2 ^ 63 := ht
    have hs := decimal_spec v.toNat
    simp only [render] at hp
    rw [scan_literal _ _ hs.1 hrest] at hp
    have hf := factorOk_number hp.1
    rw [Atoi_decimal v hv.1 hv.2] at hf
    exact ⟨_, hf, At_consumeToken hp⟩
  | BinOpNode l r op ihl ihr =>
    intro rest p hrest hp
    obtain ⟨hop, hl, hr⟩ := printable_binOp ht
    have hop2 : ∃ o, op = [o] ∧ (o = 43 ∨ o = 45 ∨ o = 42 ∨ o = 47) := by
      rcases hop with h | h | h | h
      · exact ⟨43, by rw [h, str_plus], by simp⟩
      · exact ⟨45, by rw [h, str_minus], by simp⟩
      · exact ⟨42, by rw [h, str_times], by simp⟩
      · exact ⟨47, by rw [h, str_slash], by simp⟩
    obtain ⟨o, rfl, ho⟩ := hop2
    have htxt : render (.BinOpNode l r [o]) ++ rest =
        40 :: (render l ++ o :: (render r ++ 41 :: rest)) := by
      simp [render, str_lparen, str_rparen]
    rw [htxt, scan_leftParen] at hp
    have h1 := At_consumeToken hp
    simp only at hp h1
    have hod : startsWithDigit (o :: (render r ++ 41 :: rest)) = false := by
      rcases ho with h | h | h | h <;> subst h <;> rfl
    obtain ⟨q1, hf1, hq1⟩ := ihl hl _ _ hod h1
    rw [scan_operator o _ ho] at hq1
    have h2 := At_consumeToken hq1
    simp only at hq1 h2
    obtain ⟨q3, hf3, hq3⟩ := ihr hr (41 :: rest) _ (by rfl) h2
    rw [scan_rightParen] at hq3
    simp only at hq3
    have hexit3T : TermLoopOk (.BinOpNode l r [o]) q3 (.BinOpNode l r [o]) q3 :=
      termLoopOk_exit _ (by rw [hq3.1]; simp)
    have hexit3E : ExprLoopOk (.BinOpNode l r [o]) q3 (.BinOpNode l r [o]) q3 :=
      exprLoopOk_exit _ (by rw [hq3.1]; simp)
    have inner : ExprOk (consumeToken p) (.BinOpNode l r [o]) q3 := by
      rcases ho with h | h | h | h <;> subst h
      · exact exprOk_intro
          (termOk_intro hf1 (termLoopOk_exit _ (by rw [hq1.1]; simp [str_times, str_slash])))
          (exprLoopOk_step hq1.1 (Or.inl str_plus.symm)
            (termOk_intro hf3 (termLoopOk_exit _ (by rw [hq3.1]; simp))) hexit3E)
      · exact exprOk_intro
          (termOk_intro hf1 (termLoopOk_exit _ (by rw [hq1.1]; simp [str_times, str_slash])))
          (exprLoopOk_step hq1.1 (Or.inr str_minus.symm)
            (termOk_intro hf3 (termLoopOk_exit _ (by rw [hq3.1]; simp))) hexit3E)
      · exact exprOk_intro
          (termOk_intro hf1 (termLoopOk_step hq1.1 (Or.inl str_times.symm) hf3 hexit3T))
          hexit3E
      · exact exprOk_intro
          (termOk_intro hf1 (termLoopOk_step hq1.1 (Or.inr str_slash.symm) hf3 hexit3T))
          hexit3E
    exact ⟨_, factorOk_paren (by rw [hp.1]) inner (by rw [hq3.1]), At_consumeToken hq3⟩

/-- C19: printing then parsing is the identity on trees. For every tree whose
operators are among + - * / and whose Literal values are non-negative and fit
the 64-bit integer, the lexer and parseExpression on the printed text return
exactly that tree with the lookahead at end of input, so evaluating the text
is evaluating the tree. -/
theorem C19_print_then_parse_is_identity (t : Node) (ht : t.Printable) :
    (∃ q, parse (render t) = .ok (t, q) ∧ q.currentToken.Typ = .TokenEOF) ∧
    evaluate_expression (render t) = evaluate t := by
  have h0 := At_NewParser (render t)
  have h0b : (NewParser (NewLexer (render t))).At (scan (render t ++ [])).1
      (scan (render t ++ [])).2 := by
    rw [List.append_nil]; exact h0
  obtain ⟨q, hf, hq⟩ := factor_render t ht [] _ rfl h0b
  rw [scan_nil] at hq
  have e : ExprOk (NewParser (NewLexer (render t))) t q :=
    exprOk_intro (termOk_intro hf (termLoopOk_exit _ (by rw [hq.1]; simp)))
      (exprLoopOk_exit _ (by rw [hq.1]; simp))
  have hp := parse_of_ExprOk e
  exact ⟨⟨q, hp, by rw [hq.1]⟩, evaluate_of_parse hp⟩

/-- C19 at the tree (7 - (2 * 3)): it prints as "(7-(2*3))", which parses back
to the same tree and evaluates to 1. -/
theorem C19_print_then_parse_is_identity_witness :
    (Node.BinOpNode (.NumberNode 7)
      (.BinOpNode (.NumberNode 2) (.NumberNode 3) (str "*")) (str "-")).Printable ∧
    ((∃ q, parse (render (.BinOpNode (.NumberNode 7)
          (.BinOpNode (.NumberNode 2) (.NumberNode 3) (str "*")) (str "-"))) =
        .ok (.BinOpNode (.NumberNode 7)
          (.BinOpNode (.NumberNode 2) (.NumberNode 3) (str "*")) (str "-"), q) ∧
        q.currentToken.Typ = .TokenEOF) ∧
      evaluate_expression (render (.BinOpNode (.NumberNode 7)
          (.BinOpNode (.NumberNode 2) (.NumberNode 3) (str "*")) (str "-"))) =
        evaluate (.BinOpNode (.NumberNode 7)
          (.BinOpNode (.NumberNode 2) (.NumberNode 3) (str "*")) (str "-"))) ∧
    render (.BinOpNode (.NumberNode 7)
      (.BinOpNode (.NumberNode 2) (.NumberNode 3) (str "*")) (str "-")) = str "(7-(2*3))" ∧
    evaluate_expression (str "(7-(2*3))") = .ok 1 :=
  ⟨by simp [Node.Printable],
    C19_print_then_parse_is_identity _ (by simp [Node.Printable]),
    by decide, by decide⟩

/-! ## Number conversion (C10) -/

/-- A Number token returned by `NextToken` carries a literal: one or more
decimal digits. -/
theorem NextToken_number_isLiteral (l : Lexer) (h : (NextToken l).1.Typ = .TokenNumber) :
    IsLiteral (NextToken l).1.Value := by
  cases hr : (skipWhitespace l).rest with
  | nil => rw [NextToken_of_rest_nil l hr] at h; simp at h
  | cons c t =>
    have hN := NextToken_of_rest_cons l c t hr
    by_cases hc : isDigit c = true
    · rw [if_pos hc] at hN
      have hrn := (readNumber_rest (skipWhitespace l)).1
      rw [← hN, hr] at hrn
      rw [hrn]
      refine ⟨by simp [List.takeWhile_cons, hc], ?_⟩
      intro x hx
      exact List.mem_takeWhile_imp hx
    · rw [if_neg hc] at hN
      rw [hN] at h
      split at h
      · simp [readOperator] at h
      · split at h
        · simp at h
        · split at h <;> simp at h

/-- C10 fails on the 20-digit literal 99999999999999999999: Atoi reports a
range error, yet parseFactor returns a Literal, holding 9223372036854775807,
and the line evaluates to that integer. -/
theorem C10_counterexample :
    (NewParser (NewLexer (str "99999999999999999999"))).currentToken =
      ⟨.TokenNumber, str "99999999999999999999"⟩ ∧
    (Atoi (str "99999999999999999999")).2 = some .ErrRange ∧
    parseFactor 1 (NewParser (NewLexer (str "99999999999999999999"))) =
      .ok (.NumberNode 9223372036854775807,
        consumeToken (NewParser (NewLexer (str "99999999999999999999")))) ∧
    evaluate_expression (str "99999999999999999999") = .ok 9223372036854775807 := by
  decide

/-- C10 as amended: number conversion is not checked. For a Number token
whose digit text (one or more decimal digits, the only text the lexer puts
into a Number token) Atoi rejects, the rejection is a range error: the value
of the digits is 2^63 or more. parseFactor discards that error and returns a
Literal holding 2^63 - 1, the value Atoi returns with it. -/
theorem C10_conversion_error_is_discarded (n : Nat) (p : Parser) (d : GoString)
    (hd : IsLiteral d) (htok : p.currentToken = ⟨.TokenNumber, d⟩)
    (hbad : (Atoi d).2 ≠ none) :
    parseFactor (n + 1) p = .ok (.NumberNode (2 ^ 63 - 1), consumeToken p) ∧
    2 ^ 63 ≤ digitsValue d ∧ Atoi d = (2 ^ 63 - 1, some .ErrRange) := by
  have hA := Atoi_literal d hd
  by_cases h : 2 ^ 63 ≤ digitsValue d
  · rw [if_pos h] at hA
    refine ⟨?_, h, hA⟩
    rw [parseFactor_number n p d htok, hA]
  · rw [if_neg h] at hA
    rw [hA] at hbad
    exact absurd rfl hbad

/-- C10 as amended, at the literal 99999999999999999999. -/
theorem C10_conversion_error_is_discarded_witness :
    (IsLiteral (str "99999999999999999999") ∧
      (NewParser (NewLexer (str "99999999999999999999"))).currentToken =
        ⟨.TokenNumber, str "99999999999999999999"⟩ ∧
      (Atoi (str "99999999999999999999")).2 ≠ none) ∧
    (parseFactor (0 + 1) (NewParser (NewLexer (str "99999999999999999999"))) =
        .ok (.NumberNode (2 ^ 63 - 1),
          consumeToken (NewParser (NewLexer (str "99999999999999999999")))) ∧
      2 ^ 63 ≤ digitsValue (str "99999999999999999999") ∧
      Atoi (str "99999999999999999999") = (2 ^ 63 - 1, some .ErrRange)) :=
  ⟨⟨by decide, by decide, by decide⟩,
    C10_conversion_error_is_discarded 0 _ (str "99999999999999999999") (by decide) (by decide)
      (by decide)⟩

end GoInterp
